import Mathlib

/-!
leveldb/db/file.go : the File / FileSystem layer and its default implementation

The Go file declares two interfaces (`File`, `FileSystem`) and the value
`DefaultFileSystem = defFS{}` whose methods delegate to package `os`.

Layout of this development:

* Go values: `error` (nil or an error value), `*os.File` (nil or a handle),
  the interface `File` (nil, or a dynamic `*os.File` pointer, possibly nil),
  slices (nil or a list).
* `OS σ` : the functions of package `os` that file.go calls, as a parameter
  over a state type `σ`.  Package `os` is the Go standard library and is not
  part of the repository.
* `defFS.Create`, `defFS.Open`, `defFS.Remove`, `defFS.List` : the four
  methods of file.go, translated line by line over an arbitrary `OS σ`.
* `OS.traced` : an instrumented `OS` recording every call and what it
  reported.
* `posix` : a reference instance of `OS`, written from the documentation of
  package `os` and of the system calls behind it (a Linux host: hierarchical
  namespace of directories, regular files and device files with permission
  bits, inodes, open file descriptions, 64-bit offsets).
* `Lock` : the locking method, whose implementation files are not among the
  sources.
-/

set_option autoImplicit false

namespace db

/-! ## Go values -/

/-- Error values that package os, package io and the system calls behind them report. -/
inductive Errno where
  | ENOENT
  | ENOTDIR
  | EISDIR
  | EBADF
  | EACCES
  | EINVAL
  | ENAMETOOLONG
  | EFBIG
  | EBUSY
  | ENOTEMPTY
  | EINTR
  | ErrInvalid
  | ErrClosed
  | ErrNegativeOffset
  | ErrUnsupported
  | ErrLockHeld
  | EOF
  deriving DecidableEq, Repr

/-- Go's `error` interface value: `none` is the nil error. -/
abbrev Error := Option Errno

/-- The not-found kind: what `os.IsNotExist` accepts among the errors above. -/
def Errno.isNotExist : Errno → Bool
  | .ENOENT => true
  | _ => false

/-- A handle number identifying an open `os.File`. -/
abbrev Fd := Nat

/-- A `*os.File` pointer: `none` is the nil pointer. -/
abbrev OsFile := Option Fd

abbrev Byte := UInt8

/-- The interface type `File` of file.go.  An interface value is either the nil
interface or carries a dynamic value; the only dynamic type file.go produces is
`*os.File`, whose pointer may itself be nil. -/
inductive File where
  | nil : File
  | osFile (f : OsFile) : File
  deriving DecidableEq, Repr

/-- A Go slice of strings: `none` is the nil slice. -/
abbrev Names := Option (List String)

/-- What `(*os.File).Stat` reports that this layer can observe. -/
structure FileInfo where
  size : Nat
  isDir : Bool
  deriving DecidableEq, Repr

/-- Result of `ReadAt(b, off)`: the buffer after the call, the count and the error. -/
structure ReadResult where
  buf : List Byte
  n : Nat
  err : Error
  deriving DecidableEq, Repr

/-! ## Package os, as a parameter -/

/-- The functions of package os used by file.go and by the methods of the
`File` interface, over a state `σ` of the operating system. -/
structure OS (σ : Type) where
  Create : String → σ → (OsFile × Error) × σ
  Open : String → σ → (OsFile × Error) × σ
  Remove : String → σ → Error × σ
  Readdirnames : OsFile → Int → σ → (Names × Error) × σ
  Close : OsFile → σ → Error × σ
  Write : OsFile → List Byte → σ → (Nat × Error) × σ
  ReadAt : OsFile → List Byte → Int → σ → ReadResult × σ
  Stat : OsFile → σ → (Option FileInfo × Error) × σ

/-! ## file.go -/

namespace defFS

variable {σ : Type}

/-- Source: `func (defFS) Create(name string) (File, error) { return os.Create(name) }`.
The `*os.File` result is converted to the interface type `File` at the return. -/
def Create (os : OS σ) (name : String) (s : σ) : (File × Error) × σ :=
  match os.Create name s with
  | ((f, err), s1) => ((File.osFile f, err), s1)

/-- Source: `func (defFS) Open(name string) (File, error) { return os.Open(name) }`. -/
def Open (os : OS σ) (name : String) (s : σ) : (File × Error) × σ :=
  match os.Open name s with
  | ((f, err), s1) => ((File.osFile f, err), s1)

/-- Source: `func (defFS) Remove(name string) error { return os.Remove(name) }`. -/
def Remove (os : OS σ) (name : String) (s : σ) : Error × σ :=
  os.Remove name s

/-- Source:
```
f, err := os.Open(dir)
if err != nil { return nil, err }
defer f.Close()
return f.Readdirnames(-1)
```
The deferred `f.Close()` runs after the results of `Readdirnames` are fixed and
its own result is dropped. -/
def List (os : OS σ) (dir : String) (s : σ) : (Names × Error) × σ :=
  match os.Open dir s with
  | ((_, some err), s1) => ((none, some err), s1)
  | ((f, none), s1) =>
    match os.Readdirnames f (-1) s1 with
    | (res, s2) =>
      match os.Close f s2 with
      | (_, s3) => (res, s3)

end defFS

/-! ## Methods of the interface `File`, dispatched on the dynamic value -/

namespace File

variable {σ : Type}

/-- Method call `f.Write(b)` on an interface value; `none` is the run-time panic
of a method call on the nil interface. -/
def Write (os : OS σ) : File → List Byte → σ → Option ((Nat × Error) × σ)
  | .nil, _, _ => none
  | .osFile f, b, s => some (os.Write f b s)

/-- Method call `f.ReadAt(b, off)`. -/
def ReadAt (os : OS σ) : File → List Byte → Int → σ → Option (ReadResult × σ)
  | .nil, _, _, _ => none
  | .osFile f, b, off, s => some (os.ReadAt f b off s)

/-- Method call `f.Close()`. -/
def Close (os : OS σ) : File → σ → Option (Error × σ)
  | .nil, _ => none
  | .osFile f, s => some (os.Close f s)

/-- Method call `f.Stat()`. -/
def Stat (os : OS σ) : File → σ → Option ((Option FileInfo × Error) × σ)
  | .nil, _ => none
  | .osFile f, s => some (os.Stat f s)

end File

/-! ## Instrumented OS: a log of the calls made -/

/-- One call into package os. -/
inductive Call where
  | create (name : String)
  | openFile (name : String)
  | remove (name : String)
  | readdirnames (f : OsFile) (n : Int)
  | close (f : OsFile)
  | write (f : OsFile) (b : List Byte)
  | readAt (f : OsFile) (len : Nat) (off : Int)
  | stat (f : OsFile)
  deriving DecidableEq, Repr

/-- A logged call with the error it reported. -/
structure Event where
  call : Call
  err : Error
  deriving DecidableEq, Repr

/-- Which function of package os a call is to, whatever its arguments. -/
def Call.kind : Call → Nat
  | .create _ => 0
  | .openFile _ => 1
  | .remove _ => 2
  | .readdirnames _ _ => 3
  | .close _ => 4
  | .write _ _ => 5
  | .readAt _ _ _ => 6
  | .stat _ => 7

/-- Whether the event is the closing of a handle. -/
def Event.isClose (e : Event) : Bool :=
  match e.call with
  | .close _ => true
  | _ => false

/-- The same OS, with every call appended to a log together with its error. -/
def OS.traced {σ : Type} (os : OS σ) : OS (σ × List Event) where
  Create name s :=
    match os.Create name s.1 with
    | (r, s1) => (r, (s1, s.2 ++ [⟨.create name, r.2⟩]))
  Open name s :=
    match os.Open name s.1 with
    | (r, s1) => (r, (s1, s.2 ++ [⟨.openFile name, r.2⟩]))
  Remove name s :=
    match os.Remove name s.1 with
    | (r, s1) => (r, (s1, s.2 ++ [⟨.remove name, r⟩]))
  Readdirnames f n s :=
    match os.Readdirnames f n s.1 with
    | (r, s1) => (r, (s1, s.2 ++ [⟨.readdirnames f n, r.2⟩]))
  Close f s :=
    match os.Close f s.1 with
    | (r, s1) => (r, (s1, s.2 ++ [⟨.close f, r⟩]))
  Write f b s :=
    match os.Write f b s.1 with
    | (r, s1) => (r, (s1, s.2 ++ [⟨.write f b, r.2⟩]))
  ReadAt f b off s :=
    match os.ReadAt f b off s.1 with
    | (r, s1) => (r, (s1, s.2 ++ [⟨.readAt f b.length off, r.err⟩]))
  Stat f s :=
    match os.Stat f s.1 with
    | (r, s1) => (r, (s1, s.2 ++ [⟨.stat f, r.2⟩]))

/-- The same OS, except that closing a handle releases it and then reports an
interrupted call, as close(2) may. -/
def OS.closeInterrupted {σ : Type} (os : OS σ) : OS σ :=
  { os with Close := fun f s => (some Errno.EINTR, (os.Close f s).2) }

/-! ## Association lists -/

section Assoc

variable {α β : Type} [DecidableEq α]

/-- First value stored under key `k`. -/
def find (k : α) : List (α × β) → Option β
  | [] => none
  | e :: l => if e.1 = k then some e.2 else find k l

/-- Drop every entry stored under key `k`. -/
def remove (k : α) (l : List (α × β)) : List (α × β) :=
  l.filter (fun e => decide (e.1 ≠ k))

/-- Store `v` under `k`, replacing what was there. -/
def put (k : α) (v : β) (l : List (α × β)) : List (α × β) :=
  (k, v) :: remove k l

end Assoc

/-- A number larger than every key of the table. -/
def fresh {β : Type} (l : List (Nat × β)) : Nat :=
  (l.map Prod.fst).foldr max 0 + 1

/-! ## A reference instance of package os: a Linux host

Written from the documentation of package os and of open(2), unlink(2),
rmdir(2), getdents(2), read(2), write(2) and path_resolution(7).  The namespace
holds directories, regular files and device files, each with the permission
bits that apply to the calling process.  Not represented: symbolic and hard
links, FIFOs and sockets, a limit on the number of descriptors, device
failures; the working directory is the root. -/

/-- A resolved path: its components, innermost first; `[]` is the root directory. -/
abbrev Path := List String

/-- The permission bits that apply to the calling process. -/
structure Perm where
  r : Bool
  w : Bool
  x : Bool
  deriving DecidableEq, Repr

/-- What a name of the namespace denotes: a directory, a regular file, or a
character device that behaves as /dev/null; files and devices carry their inode
number. -/
inductive Node where
  | dir (perm : Perm) : Node
  | file (ino : Nat) (perm : Perm) : Node
  | device (ino : Nat) (perm : Perm) : Node
  deriving DecidableEq, Repr

/-- What an open descriptor refers to. -/
inductive Target where
  | dir (p : Path) : Target
  | file (ino : Nat) : Target
  | device : Target
  deriving DecidableEq, Repr

/-- An open file description. -/
structure Desc where
  target : Target
  writable : Bool
  offset : Nat
  deriving DecidableEq, Repr

/-- State of the host: the namespace (the root directory is the entry `[]`),
the content of every inode, the table of open descriptors, the bits the umask
of the process clears, and the largest size a file may grow to. -/
structure World where
  names : List (Path × Node)
  store : List (Nat × List Byte)
  fds : List (Fd × Desc)
  umask : Perm
  fileSizeLimit : Nat
  deriving DecidableEq, Repr

/-- NAME_MAX: the longest component, in bytes. -/
def nameMax : Nat := 255

/-- PATH_MAX: a path name, with its terminating NUL byte, fits in this many bytes. -/
def pathMax : Nat := 4096

/-- The largest value of an int64 offset. -/
def maxInt64 : Nat := 9223372036854775807

/-- Cut a name at every separator. -/
def splitSlash : List Char → List (List Char)
  | [] => [[]]
  | c :: cs =>
    if c = '/' then [] :: splitSlash cs
    else
      match splitSlash cs with
      | [] => [[c]]
      | h :: t => (c :: h) :: t

/-- The components of a path name, outermost first. -/
def components (name : String) : List String :=
  (splitSlash name.data).map String.mk

/-- What is wrong with a name before any lookup: the empty name does not exist,
package syscall refuses a NUL byte, and the kernel refuses a name that does not
fit in PATH_MAX. -/
def nameCheck (name : String) : Option Errno :=
  if name = "" then some Errno.ENOENT
  else if Char.ofNat 0 ∈ name.data then some Errno.EINVAL
  else if pathMax ≤ name.utf8ByteSize then some Errno.ENAMETOOLONG
  else none

/-- An entry name: a single component other than the empty one, dot and dot-dot. -/
def properName (n : String) : Prop :=
  n ≠ "" ∧ n ≠ "." ∧ n ≠ ".." ∧ '/' ∉ n.data

namespace World

/-- The node at a resolved path. -/
def lookupNode (w : World) (p : Path) : Option Node :=
  find p w.names

/-- Bytes of an inode. -/
def content (w : World) (ino : Nat) : List Byte :=
  (find ino w.store).getD []

/-- Names of the entries directly inside the directory at `p`. -/
def children (w : World) (p : Path) : List String :=
  w.names.filterMap fun e =>
    match e.1 with
    | [] => none
    | n :: q => if q = p then some n else none

/-- One step of path resolution: the component `c` is looked up in `cur`, which
must be a directory that exists and that the process may search; an empty
component (a doubled or trailing separator) only asks for a directory. -/
def next (w : World) (cur : Path) (c : String) : Except Errno Path :=
  match w.lookupNode cur with
  | none => Except.error Errno.ENOENT
  | some (Node.dir perm) =>
    if c = "" then Except.ok cur
    else if perm.x = false then Except.error Errno.EACCES
    else if c = "." then Except.ok cur
    else if c = ".." then Except.ok cur.tail
    else if nameMax < c.utf8ByteSize then Except.error Errno.ENAMETOOLONG
    else Except.ok (c :: cur)
  | some _ => Except.error Errno.ENOTDIR

/-- Path resolution, component by component. -/
def walk (w : World) : Path → List String → Except Errno Path
  | cur, [] => Except.ok cur
  | cur, c :: cs =>
    match w.next cur c with
    | Except.error e => Except.error e
    | Except.ok q => walk w q cs

/-- Resolve a path name; the final component need not exist. -/
def resolve (w : World) (name : String) : Except Errno Path :=
  match nameCheck name with
  | some e => Except.error e
  | none => walk w [] (components name)

/-- The name denotes a regular file. -/
def isRegular (w : World) (name : String) : Prop :=
  ∃ p ino perm, w.resolve name = Except.ok p ∧ w.lookupNode p = some (Node.file ino perm)

/-- Whether the process may add or drop the entry at `p`: the directory holding
it must be writable and searchable. -/
def parentWritable (w : World) (p : Path) : Bool :=
  match p with
  | [] => false
  | _ :: parent =>
    match w.lookupNode parent with
    | some (Node.dir perm) => perm.w && perm.x
    | _ => false

/-- Install a new open file description under a fresh handle. -/
def alloc (w : World) (d : Desc) : (OsFile × Error) × World :=
  ((some (fresh w.fds), none), { w with fds := put (fresh w.fds) d w.fds })

/-- An inode number that no file or device of the host carries. -/
def freshIno (w : World) : Nat :=
  (w.store.map Prod.fst ++
    w.names.filterMap (fun e =>
      match e.2 with
      | Node.dir _ => none
      | Node.file i _ => some i
      | Node.device i _ => some i)).foldr max 0 + 1

/-- The size no write may take a file beyond. -/
def sizeLimit (w : World) : Nat :=
  min w.fileSizeLimit maxInt64

/-- The permission bits of a file created with mode 0666 under the umask. -/
def newFilePerm (w : World) : Perm :=
  ⟨!w.umask.r, !w.umask.w, false⟩

/-- Every component of every path of the namespace is an entry name. -/
def wellNamed (w : World) : Prop :=
  ∀ e ∈ w.names, ∀ c ∈ e.1, properName c

end World

/-- Overwrite `old` with `b` at offset `off`, zero-filling a gap past the end. -/
def writeAt (old : List Byte) (off : Nat) (b : List Byte) : List Byte :=
  old.take off ++ List.replicate (off - old.length) 0 ++ b ++ old.drop (off + b.length)

/-- Last component of a name that is not empty (trailing separators are ignored). -/
def lastComponent (name : String) : Option String :=
  ((components name).filter (fun c => decide (c ≠ ""))).getLast?

namespace posix

/-- Package os: `Open(name)` is `OpenFile(name, O_RDONLY, 0)`; the node must be
readable by the process. -/
def Open (name : String) (w : World) : (OsFile × Error) × World :=
  match w.resolve name with
  | Except.error e => ((none, some e), w)
  | Except.ok p =>
    match w.lookupNode p with
    | none => ((none, some Errno.ENOENT), w)
    | some (Node.dir perm) =>
      if perm.r then w.alloc ⟨Target.dir p, false, 0⟩ else ((none, some Errno.EACCES), w)
    | some (Node.file ino perm) =>
      if perm.r then w.alloc ⟨Target.file ino, false, 0⟩ else ((none, some Errno.EACCES), w)
    | some (Node.device _ perm) =>
      if perm.r then w.alloc ⟨Target.device, false, 0⟩ else ((none, some Errno.EACCES), w)

/-- Package os: `Create(name)` is `OpenFile(name, O_RDWR|O_CREATE|O_TRUNC, 0666)`.
An existing node must be readable and writable; a regular file is truncated, a
device is not.  A new file needs a writable directory and gets mode 0666 less
the umask, whatever access the handle itself has. -/
def Create (name : String) (w : World) : (OsFile × Error) × World :=
  match w.resolve name with
  | Except.error e => ((none, some e), w)
  | Except.ok p =>
    match w.lookupNode p with
    | some (Node.dir _) => ((none, some Errno.EISDIR), w)
    | some (Node.file ino perm) =>
      if perm.r && perm.w then
        World.alloc { w with store := put ino [] w.store } ⟨Target.file ino, true, 0⟩
      else ((none, some Errno.EACCES), w)
    | some (Node.device _ perm) =>
      if perm.r && perm.w then w.alloc ⟨Target.device, true, 0⟩
      else ((none, some Errno.EACCES), w)
    | none =>
      if w.parentWritable p then
        World.alloc
          { w with names := put p (Node.file (w.freshIno) w.newFilePerm) w.names,
                   store := put (w.freshIno) [] w.store }
          ⟨Target.file (w.freshIno), true, 0⟩
      else ((none, some Errno.EACCES), w)

/-- Package os: `Remove(name)` unlinks a file or removes an empty directory; the
directory holding the entry must be writable. -/
def Remove (name : String) (w : World) : Error × World :=
  match w.resolve name with
  | Except.error e => (some e, w)
  | Except.ok p =>
    match w.lookupNode p with
    | none => (some Errno.ENOENT, w)
    | some (Node.dir _) =>
      if lastComponent name = some "." then (some Errno.EINVAL, w)
      else if lastComponent name = some ".." then (some Errno.ENOTEMPTY, w)
      else if p = [] then (some Errno.EBUSY, w)
      else if w.parentWritable p = false then (some Errno.EACCES, w)
      else if w.children p ≠ [] then (some Errno.ENOTEMPTY, w)
      else (none, { w with names := remove p w.names })
    | some _ =>
      if w.parentWritable p then (none, { w with names := remove p w.names })
      else (some Errno.EACCES, w)

/-- Package os: `(*File).Readdirnames(n)`. -/
def Readdirnames (f : OsFile) (n : Int) (w : World) : (Names × Error) × World :=
  match f with
  | none => ((none, some Errno.ErrInvalid), w)
  | some fd =>
    match find fd w.fds with
    | none => ((some [], some Errno.ErrClosed), w)
    | some d =>
      match d.target with
      | Target.dir p =>
        let rest := (w.children p).drop d.offset
        if n ≤ 0 then
          ((some rest, none),
            { w with fds := put fd { d with offset := d.offset + rest.length } w.fds })
        else if rest = [] then ((some [], some Errno.EOF), w)
        else
          ((some (rest.take n.toNat), none),
            { w with fds := put fd { d with offset := d.offset + (rest.take n.toNat).length } w.fds })
      | _ => ((some [], some Errno.ENOTDIR), w)

/-- Package os: `(*File).Close()`. -/
def Close (f : OsFile) (w : World) : Error × World :=
  match f with
  | none => (some Errno.ErrInvalid, w)
  | some fd =>
    match find fd w.fds with
    | none => (some Errno.ErrClosed, w)
    | some _ => (none, { w with fds := remove fd w.fds })

/-- Package os: `(*File).Write(b)` writes at the current offset and advances it.
A device takes and drops every byte.  A regular file takes the bytes that fit
below the size limit; when not all fit, the count of those written is returned
with EFBIG. -/
def Write (f : OsFile) (b : List Byte) (w : World) : (Nat × Error) × World :=
  match f with
  | none => ((0, some Errno.ErrInvalid), w)
  | some fd =>
    match find fd w.fds with
    | none => ((0, some Errno.ErrClosed), w)
    | some d =>
      if d.writable then
        match d.target with
        | Target.dir _ => ((0, some Errno.EBADF), w)
        | Target.device => ((b.length, none), w)
        | Target.file ino =>
          if b = [] then ((0, none), w)
          else if b.length ≤ w.sizeLimit - d.offset then
            ((b.length, none),
              { w with store := put ino (writeAt (w.content ino) d.offset b) w.store,
                       fds := put fd { d with offset := d.offset + b.length } w.fds })
          else if w.sizeLimit - d.offset = 0 then ((0, some Errno.EFBIG), w)
          else
            ((w.sizeLimit - d.offset, some Errno.EFBIG),
              { w with store := put ino
                         (writeAt (w.content ino) d.offset (b.take (w.sizeLimit - d.offset)))
                         w.store,
                       fds := put fd { d with offset := w.sizeLimit } w.fds })
      else ((0, some Errno.EBADF), w)

/-- Package os: `(*File).ReadAt(b, off)` reads `len(b)` bytes from offset `off`,
reporting `io.EOF` when fewer are available.  The offset is an int64: pread(2)
fails with EINVAL when `off + len(b)` passes the largest int64.  A device has no
byte to give. -/
def ReadAt (f : OsFile) (b : List Byte) (off : Int) (w : World) : ReadResult × World :=
  match f with
  | none => (⟨b, 0, some Errno.ErrInvalid⟩, w)
  | some fd =>
    if off < 0 then (⟨b, 0, some Errno.ErrNegativeOffset⟩, w)
    else if b = [] then (⟨b, 0, none⟩, w)
    else
      match find fd w.fds with
      | none => (⟨b, 0, some Errno.ErrClosed⟩, w)
      | some d =>
        if (maxInt64 : Int) < off + b.length then (⟨b, 0, some Errno.EINVAL⟩, w)
        else
          match d.target with
          | Target.dir _ => (⟨b, 0, some Errno.EISDIR⟩, w)
          | Target.device => (⟨b, 0, some Errno.EOF⟩, w)
          | Target.file ino =>
            let data := ((w.content ino).drop off.toNat).take b.length
            (⟨data ++ b.drop data.length, data.length,
              if data.length < b.length then some Errno.EOF else none⟩, w)

/-- Package os: `(*File).Stat()`. -/
def Stat (f : OsFile) (w : World) : (Option FileInfo × Error) × World :=
  match f with
  | none => ((none, some Errno.ErrInvalid), w)
  | some fd =>
    match find fd w.fds with
    | none => ((none, some Errno.ErrClosed), w)
    | some d =>
      match d.target with
      | Target.dir _ => ((some ⟨0, true⟩, none), w)
      | Target.device => ((some ⟨0, false⟩, none), w)
      | Target.file ino => ((some ⟨(w.content ino).length, false⟩, none), w)

end posix

/-- The reference instance of package os. -/
def posix : OS World where
  Create := posix.Create
  Open := posix.Open
  Remove := posix.Remove
  Readdirnames := posix.Readdirnames
  Close := posix.Close
  Write := posix.Write
  ReadAt := posix.ReadAt
  Stat := posix.Stat

/-! ## Locking -/

/-- Modelled from the spec: the host platforms of section 9 of the spec, the
primary target, which has the locking primitive, and the platforms lacking it.
The per-platform files that select the implementation are not among the sources. -/
inductive Platform where
  | linux
  | other
  deriving DecidableEq, Repr

/-- Modelled from the spec: the state the advisory locks live in, which no
source file declares.  The host, together with the pairs of an inode and the
process holding it locked. -/
structure LockWorld where
  world : World
  locks : List (Nat × Nat)
  deriving DecidableEq, Repr

/-- Modelled from the spec: the lock handle of section 3 of the spec, whose type
is declared in a file that is not among the sources.  It records the handle the
lock was taken through, the locked inode and the owning process. -/
structure LockHandle where
  fd : Fd
  ino : Nat
  pid : Nat
  deriving DecidableEq, Repr

/-- The `io.Closer` returned by `Lock`: `none` is the nil Closer. -/
abbrev Closer := Option LockHandle

/-- The inode, permission bits and descriptor target of a node that can be
opened for writing; a directory cannot. -/
def Node.lockable : Node → Option (Nat × Perm × Target)
  | Node.dir _ => none
  | Node.file ino perm => some (ino, perm, Target.file ino)
  | Node.device ino perm => some (ino, perm, Target.device)

/-- Package os: `OpenFile(name, O_RDWR|O_CREATE, 0666)`, opening the file at
`name` and creating it if it does not exist; reports the handle and the inode. -/
def posix.OpenOrCreate (name : String) (w : World) : Except Errno (Fd × Nat) × World :=
  match w.resolve name with
  | Except.error e => (Except.error e, w)
  | Except.ok p =>
    match w.lookupNode p with
    | some nd =>
      match nd.lockable with
      | none => (Except.error Errno.EISDIR, w)
      | some (ino, perm, t) =>
        if perm.r && perm.w then (Except.ok (fresh w.fds, ino), (w.alloc ⟨t, true, 0⟩).2)
        else (Except.error Errno.EACCES, w)
    | none =>
      if w.parentWritable p then
        (Except.ok (fresh w.fds, w.freshIno),
          (World.alloc
            { w with names := put p (Node.file (w.freshIno) w.newFilePerm) w.names,
                     store := put (w.freshIno) [] w.store }
            ⟨Target.file (w.freshIno), true, 0⟩).2)
      else (Except.error Errno.EACCES, w)

/-- The file at `name` can be opened for reading and writing, or created. -/
def canOpen (name : String) (w : World) : Prop :=
  ∃ r w1, posix.OpenOrCreate name w = (Except.ok r, w1)

/-- Modelled from the spec: the test for "another holder already holds the
lock" of section 4.2 of the spec, on the lock table; the code making it is not
among the sources. -/
def heldByOther (locks : List (Nat × Nat)) (ino pid : Nat) : Bool :=
  locks.any (fun l => decide (l.1 = ino ∧ l.2 ≠ pid))

/-- Modelled from the spec: `defFS.Lock`, which file.go declares in the
interface and documents, and whose implementation is in per-platform files that
are not among the sources.  Section 4.2 of the spec: the call attempts to take
an exclusive advisory lock on the file at `name`, creating the file if it does
not exist; on success it returns a releasable handle; on failure it returns no
handle and an error, because another holder has the lock, because the platform
lacks the primitive, or because of an I/O error.  Section 5: the lock
coordinates separate processes, so the calling process `pid` is an argument.
The doc comment in file.go: closing another descriptor of the same process for
the same file releases the lock; here this is so for the lock handles, whose
Close drops every claim of the process on the file. -/
def Lock (plat : Platform) (pid : Nat) (name : String) (s : LockWorld) :
    (Closer × Error) × LockWorld :=
  match plat with
  | Platform.other => ((none, some Errno.ErrUnsupported), s)
  | Platform.linux =>
    match posix.OpenOrCreate name s.world with
    | (Except.error e, w1) => ((none, some e), ⟨w1, s.locks⟩)
    | (Except.ok (fd, ino), w1) =>
      if heldByOther s.locks ino pid then
        ((none, some Errno.ErrLockHeld), ⟨(posix.Close (some fd) w1).2, s.locks⟩)
      else
        ((some ⟨fd, ino, pid⟩, none), ⟨w1, (ino, pid) :: s.locks⟩)

/-- Modelled from the spec: dropping the claim of process `pid` on inode `ino`
from the lock table; the code doing it is not among the sources. -/
def release (locks : List (Nat × Nat)) (ino pid : Nat) : List (Nat × Nat) :=
  locks.filter (fun l => decide (l ≠ (ino, pid)))

/-- Modelled from the spec: closing a lock handle, which the spec gives as the
way to drop the lock; the method is in a file that is not among the sources.
Closing the handle releases the claim of its process on its inode. -/
def LockHandle.Close (h : LockHandle) (s : LockWorld) : Error × LockWorld :=
  match posix.Close (some h.fd) s.world with
  | (some e, w1) => (some e, ⟨w1, s.locks⟩)
  | (none, w1) => (none, ⟨w1, release s.locks h.ino h.pid⟩)

/-- The handle `h` taken on `name` is unreleased in `s`: its descriptor is open,
`name` still resolves to the file of its inode, its process still holds the
claim on that inode, and no other process does. -/
def LockHandle.heldOn (h : LockHandle) (name : String) (s : LockWorld) : Prop :=
  (∃ p nd perm t, s.world.resolve name = Except.ok p ∧ s.world.lookupNode p = some nd ∧
    nd.lockable = some (h.ino, perm, t)) ∧
  (find h.fd s.world.fds).isSome = true ∧
  (h.ino, h.pid) ∈ s.locks ∧ ∀ q, (h.ino, q) ∈ s.locks → q = h.pid

/-! ## Scenarios and sample states -/

/-- What each call of the example scenario reported. -/
structure RoundTrip where
  createErr : Error
  writeErr : Error
  closeErr : Error
  openErr : Error
  read : ReadResult
  deriving DecidableEq, Repr

/-- The example scenario of section 8 of the spec:
`Create(name); Write(b); Close(); Open(name); ReadAt(buf, 0)` with a zeroed
buffer of `len(b)` bytes.  The scenario goes on whatever a call reports; `none`
is a run-time panic. -/
def roundTrip {σ : Type} (os : OS σ) (name : String) (b : List Byte) (s : σ) :
    Option RoundTrip :=
  match defFS.Create os name s with
  | ((f, e1), s1) =>
    match File.Write os f b s1 with
    | none => none
    | some ((_, e2), s2) =>
      match File.Close os f s2 with
      | none => none
      | some (e3, s3) =>
        match defFS.Open os name s3 with
        | ((g, e4), s4) =>
          match File.ReadAt os g (List.replicate b.length 0) 0 s4 with
          | none => none
          | some (r, _) => some ⟨e1, e2, e3, e4, r⟩

/-- All permission bits. -/
def rwx : Perm := ⟨true, true, true⟩

/-- A host with nothing but the root directory. -/
def emptyWorld : World :=
  ⟨[([], Node.dir rwx)], [], [], ⟨false, false, false⟩, 1099511627776⟩

/-- A host holding a directory `d` and a regular file `a` of three bytes. -/
def sampleWorld : World :=
  ⟨[([], Node.dir rwx), (["d"], Node.dir rwx), (["a"], Node.file 1 ⟨true, true, false⟩)],
    [(1, [1, 2, 3])], [], ⟨false, false, false⟩, 1099511627776⟩

/-- A host holding the device `/dev/null`. -/
def deviceWorld : World :=
  ⟨[([], Node.dir rwx), (["dev"], Node.dir rwx),
      (["null", "dev"], Node.device 1 ⟨true, true, false⟩)],
    [], [], ⟨false, false, false⟩, 1099511627776⟩

/-- A host whose process runs under umask 0777: new files get no permission bit. -/
def maskedWorld : World :=
  ⟨[([], Node.dir rwx)], [], [], ⟨true, true, true⟩, 1099511627776⟩

/-- The bytes of the word hello. -/
def hello : List Byte := [104, 101, 108, 108, 111]

/-! ## The methods of file.go over an arbitrary OS -/

section Generic

variable {σ : Type}

theorem create_traced (os : OS σ) (name : String) (s : σ) (l : List Event) :
    defFS.Create os.traced name (s, l) =
      ((defFS.Create os name s).1,
        ((defFS.Create os name s).2, l ++ [⟨Call.create name, (defFS.Create os name s).1.2⟩])) := by
  simp [defFS.Create, OS.traced]

theorem open_traced (os : OS σ) (name : String) (s : σ) (l : List Event) :
    defFS.Open os.traced name (s, l) =
      ((defFS.Open os name s).1,
        ((defFS.Open os name s).2, l ++ [⟨Call.openFile name, (defFS.Open os name s).1.2⟩])) := by
  simp [defFS.Open, OS.traced]

theorem remove_traced (os : OS σ) (name : String) (s : σ) (l : List Event) :
    defFS.Remove os.traced name (s, l) =
      ((defFS.Remove os name s).1,
        ((defFS.Remove os name s).2, l ++ [⟨Call.remove name, (defFS.Remove os name s).1⟩])) := by
  simp [defFS.Remove, OS.traced]

/-- When opening the directory fails, `List` stops after that one call. -/
theorem list_traced_open_error (os : OS σ) (dir : String) (s : σ) (l : List Event)
    (e : Errno) (h : (os.Open dir s).1.2 = some e) :
    defFS.List os.traced dir (s, l) =
      ((none, some e), ((os.Open dir s).2, l ++ [⟨Call.openFile dir, some e⟩])) := by
  rcases h1 : os.Open dir s with ⟨⟨f, e1⟩, s1⟩
  rw [h1] at h
  simp only at h
  subst h
  simp [defFS.List, OS.traced, h1]

/-- When opening the directory succeeds, `List` reads the names, closes the
handle, and returns what the read returned. -/
theorem list_traced_open_ok (os : OS σ) (dir : String) (s : σ) (l : List Event)
    (h : (os.Open dir s).1.2 = none) :
    defFS.List os.traced dir (s, l) =
      ((os.Readdirnames (os.Open dir s).1.1 (-1) (os.Open dir s).2).1,
        ((os.Close (os.Open dir s).1.1
            (os.Readdirnames (os.Open dir s).1.1 (-1) (os.Open dir s).2).2).2,
          l ++ [⟨Call.openFile dir, none⟩,
                ⟨Call.readdirnames (os.Open dir s).1.1 (-1),
                  (os.Readdirnames (os.Open dir s).1.1 (-1) (os.Open dir s).2).1.2⟩,
                ⟨Call.close (os.Open dir s).1.1,
                  (os.Close (os.Open dir s).1.1
                    (os.Readdirnames (os.Open dir s).1.1 (-1) (os.Open dir s).2).2).1⟩])) := by
  rcases h1 : os.Open dir s with ⟨⟨f, e1⟩, s1⟩
  rw [h1] at h
  simp only at h
  subst h
  simp [defFS.List, OS.traced, h1]

end Generic


/-! ## Association lists -/

section AssocLemmas

variable {α β : Type} [DecidableEq α]

theorem find_remove_self (k : α) (l : List (α × β)) : find k (remove k l) = none := by
  induction l with
  | nil => rfl
  | cons e l ih =>
    by_cases h : e.1 = k
    · simpa [remove, List.filter, h] using ih
    · simpa [remove, List.filter, h, find] using ih

theorem find_filter {k' : α} (p : α × β → Bool) (hp : ∀ e, e.1 = k' → p e = true)
    (l : List (α × β)) : find k' (l.filter p) = find k' l := by
  induction l with
  | nil => rfl
  | cons e l ih =>
    rw [List.filter_cons]
    by_cases h2 : e.1 = k'
    · rw [if_pos (hp e h2)]
      simp [find, h2]
    · by_cases h3 : p e = true
      · rw [if_pos h3]
        simp [find, h2, ih]
      · rw [if_neg h3]
        simp [find, h2, ih]

theorem find_remove_ne {k k' : α} (h : k' ≠ k) (l : List (α × β)) :
    find k' (remove k l) = find k' l := by
  unfold remove
  apply find_filter
  intro e he
  exact decide_eq_true (by rw [he]; exact h)

theorem find_put_self (k : α) (v : β) (l : List (α × β)) : find k (put k v l) = some v := by
  simp [put, find]

theorem find_put_ne {k k' : α} (h : k' ≠ k) (v : β) (l : List (α × β)) :
    find k' (put k v l) = find k' l := by
  simp [put, find, Ne.symm h, find_remove_ne h]

theorem find_eq_none_iff (k : α) (l : List (α × β)) :
    find k l = none ↔ ∀ e ∈ l, e.1 ≠ k := by
  induction l with
  | nil => simp [find]
  | cons e l ih =>
    by_cases h : e.1 = k
    · simp [find, h]
    · simp [find, h, ih]

end AssocLemmas

/-! ## C3, C5 -/

/-- C3 (amended): each of Create, Open and Remove makes exactly one call into
package os and returns the error of that call; List makes no call twice, and
the error of every call it makes other than the deferred Close is the error it
returns.  The error of the deferred Close is dropped. -/
theorem C3_calls_once_errors_returned {σ : Type} (os : OS σ) (name : String) (s : σ) :
    (defFS.Create os.traced name (s, [])).2.2
        = [⟨Call.create name, (defFS.Create os.traced name (s, [])).1.2⟩] ∧
    (defFS.Open os.traced name (s, [])).2.2
        = [⟨Call.openFile name, (defFS.Open os.traced name (s, [])).1.2⟩] ∧
    (defFS.Remove os.traced name (s, [])).2.2
        = [⟨Call.remove name, (defFS.Remove os.traced name (s, [])).1⟩] ∧
    ((defFS.List os.traced name (s, [])).2.2.map (fun e => e.call.kind)).Nodup ∧
    (∀ e ∈ (defFS.List os.traced name (s, [])).2.2, e.isClose = false → e.err ≠ none →
        (defFS.List os.traced name (s, [])).1.2 = e.err) := by
  refine ⟨by simp [create_traced], by simp [open_traced], by simp [remove_traced], ?_⟩
  rcases h : (os.Open name s).1.2 with _ | e
  · rw [list_traced_open_ok os name s [] h]
    refine ⟨by simp [Call.kind], ?_⟩
    intro e he hc hne
    simp only [List.nil_append, List.mem_cons, List.mem_singleton, List.mem_nil_iff,
      or_false] at he
    rcases he with rfl | rfl | rfl
    · exact absurd rfl hne
    · rfl
    · simp [Event.isClose] at hc
  · rw [list_traced_open_error os name s [] e h]
    refine ⟨by simp, ?_⟩
    intro e he _ _
    simp only [List.nil_append, List.mem_singleton] at he
    subst he
    rfl

/-- C3 witness: listing the regular file `a`, the read of the names reports
ENOTDIR and that is the error List returns. -/
theorem C3_calls_once_errors_returned_witness :
    (defFS.List posix.traced "a" (sampleWorld, [])).1.2 = some Errno.ENOTDIR :=
  (C3_calls_once_errors_returned posix "a" sampleWorld).2.2.2.2
    ⟨Call.readdirnames (some 1) (-1), some Errno.ENOTDIR⟩ (by decide) (by decide) (by decide)

/-- C3 counterexample: on a host whose close reports an interrupted call, List
of the root directory makes a call that reports an error and returns a nil error. -/
theorem C3_close_error_discarded :
    (⟨Call.close (some 1), some Errno.EINTR⟩ : Event)
        ∈ (defFS.List posix.closeInterrupted.traced "/" (sampleWorld, [])).2.2 ∧
    (defFS.List posix.closeInterrupted.traced "/" (sampleWorld, [])).1.2 = none := by
  decide


/-! ## Path resolution on the reference host -/

theorem next_ok_dir (w : World) (cur q : Path) (c : String)
    (h : w.next cur c = Except.ok q) : ∃ perm, w.lookupNode cur = some (Node.dir perm) := by
  unfold World.next at h
  split at h
  · simp at h
  · exact ⟨_, by assumption⟩
  · simp at h

theorem next_of_lookup_eq (w w1 : World) (cur : Path) (c : String)
    (h : w1.lookupNode cur = w.lookupNode cur) : w1.next cur c = w.next cur c := by
  simp only [World.next, h]

/-- A walk that succeeds on `w` gives the same result on any host whose
directories include those of `w`. -/
theorem walk_of_dirs_kept (w w1 : World)
    (hd : ∀ q perm, w.lookupNode q = some (Node.dir perm) →
      w1.lookupNode q = some (Node.dir perm))
    (cs : List String) :
    ∀ (cur p : Path), w.walk cur cs = Except.ok p → w1.walk cur cs = Except.ok p := by
  induction cs with
  | nil => intro cur p h; simpa [World.walk] using h
  | cons c cs ih =>
    intro cur p h
    unfold World.walk at h ⊢
    rcases hn : w.next cur c with e | q
    · rw [hn] at h; simp at h
    · obtain ⟨perm, hl⟩ := next_ok_dir w cur q c hn
      rw [next_of_lookup_eq w w1 cur c ((hd cur perm hl).trans hl.symm), hn]
      rw [hn] at h
      exact ih _ _ h

/-- A walk that succeeds on `w` either gives the same result or reports a
missing entry on a host where directories of `w` may have gone. -/
theorem walk_of_dirs_kept_or_gone (w w1 : World)
    (hd : ∀ q perm, w.lookupNode q = some (Node.dir perm) →
      w1.lookupNode q = some (Node.dir perm) ∨ w1.lookupNode q = none)
    (cs : List String) :
    ∀ (cur p : Path), w.walk cur cs = Except.ok p →
      w1.walk cur cs = Except.ok p ∨ w1.walk cur cs = Except.error Errno.ENOENT := by
  induction cs with
  | nil => intro cur p h; left; simpa [World.walk] using h
  | cons c cs ih =>
    intro cur p h
    unfold World.walk at h ⊢
    rcases hn : w.next cur c with e | q
    · rw [hn] at h; simp at h
    · obtain ⟨perm, hl⟩ := next_ok_dir w cur q c hn
      rw [hn] at h
      rcases hd cur perm hl with h1 | h1
      · rw [next_of_lookup_eq w w1 cur c (h1.trans hl.symm), hn]
        exact ih _ _ h
      · right
        simp [World.next, h1]

theorem lookupNode_remove (w : World) (p q : Path) (st : List (Nat × List Byte))
    (fds : List (Fd × Desc)) (um : Perm) (lim : Nat) :
    World.lookupNode ⟨remove p w.names, st, fds, um, lim⟩ q =
      if q = p then none else w.lookupNode q := by
  unfold World.lookupNode
  by_cases hqp : q = p
  · subst hqp
    simp [find_remove_self]
  · simp [hqp, find_remove_ne hqp]

theorem lookupNode_put (w : World) (p q : Path) (nd : Node) (st : List (Nat × List Byte))
    (fds : List (Fd × Desc)) (um : Perm) (lim : Nat) :
    World.lookupNode ⟨put p nd w.names, st, fds, um, lim⟩ q =
      if q = p then some nd else w.lookupNode q := by
  unfold World.lookupNode
  by_cases hqp : q = p
  · subst hqp
    simp [find_put_self]
  · simp [hqp, find_put_ne hqp]

theorem resolve_ok_walk (w : World) (name : String) (p : Path)
    (h : w.resolve name = Except.ok p) :
    nameCheck name = none ∧ w.walk [] (components name) = Except.ok p := by
  unfold World.resolve at h
  split at h
  · simp at h
  · exact ⟨by assumption, h⟩

theorem resolve_of_dirs_kept (w w1 : World) (name : String) (p : Path)
    (hd : ∀ q perm, w.lookupNode q = some (Node.dir perm) →
      w1.lookupNode q = some (Node.dir perm))
    (h : w.resolve name = Except.ok p) : w1.resolve name = Except.ok p := by
  obtain ⟨hne, hwalk⟩ := resolve_ok_walk w name p h
  simp [World.resolve, hne, walk_of_dirs_kept w w1 hd _ _ _ hwalk]

/-! ## C5 -/

/-- C5: List of a name that is not an existing directory returns a non-nil error
on the reference host; and on every host, when opening the directory fails, List
returns the nil slice with exactly the error of the open, and the open is the
only call made. -/
theorem C5_list_fails_unless_directory :
    (∀ (w : World) (dir : String),
      (¬ ∃ p perm, w.resolve dir = Except.ok p ∧ w.lookupNode p = some (Node.dir perm)) →
        (defFS.List posix dir w).1.2 ≠ none) ∧
    (∀ (σ : Type) (os : OS σ) (dir : String) (s : σ) (e : Errno),
      (os.Open dir s).1.2 = some e →
        (defFS.List os dir s).1 = (none, some e) ∧
        (defFS.List os.traced dir (s, [])).1 = (none, some e) ∧
        (defFS.List os.traced dir (s, [])).2.2 = [⟨Call.openFile dir, some e⟩]) := by
  constructor
  · intro w dir hnd
    rcases hr : w.resolve dir with e | p
    · simp [defFS.List, posix, posix.Open, hr]
    · rcases hl : w.lookupNode p with _ | nd
      · simp [defFS.List, posix, posix.Open, hr, hl]
      · cases nd with
        | dir perm => exact absurd ⟨p, perm, hr, hl⟩ hnd
        | file ino perm =>
          cases hp : perm.r <;>
            simp [defFS.List, posix, posix.Open, hr, hl, hp, World.alloc, posix.Readdirnames,
              find_put_self]
        | device ino perm =>
          cases hp : perm.r <;>
            simp [defFS.List, posix, posix.Open, hr, hl, hp, World.alloc, posix.Readdirnames,
              find_put_self]
  · intro σ os dir s e h
    refine ⟨?_, by simp [list_traced_open_error os dir s [] e h],
      by simp [list_traced_open_error os dir s [] e h]⟩
    rcases h1 : os.Open dir s with ⟨⟨f, e1⟩, s1⟩
    rw [h1] at h
    simp only at h
    subst h
    simp [defFS.List, h1]

/-- C5 witness: listing a name under a missing directory, and a regular file. -/
theorem C5_list_fails_unless_directory_witness :
    (defFS.List posix "nodir/x" sampleWorld).1.2 ≠ none ∧
    (defFS.List posix "a" sampleWorld).1.2 ≠ none ∧
    (defFS.List posix.traced "nodir/x" (sampleWorld, [])).2.2
      = [⟨Call.openFile "nodir/x", some Errno.ENOENT⟩] :=
  ⟨C5_list_fails_unless_directory.1 sampleWorld "nodir/x" (by
      rintro ⟨p, perm, h1, h2⟩
      have h3 : sampleWorld.resolve "nodir/x" = Except.error Errno.ENOENT := by rfl
      rw [h3] at h1
      exact absurd h1 (by simp)),
    C5_list_fails_unless_directory.1 sampleWorld "a" (by
      rintro ⟨p, perm, h1, h2⟩
      have h3 : sampleWorld.resolve "a" = Except.ok ["a"] := by rfl
      rw [h3] at h1
      simp only [Except.ok.injEq] at h1
      subst h1
      have h4 : sampleWorld.lookupNode ["a"] = some (Node.file 1 ⟨true, true, false⟩) := by
        decide
      rw [h4] at h2
      simp at h2),
    (C5_list_fails_unless_directory.2 World posix "nodir/x" sampleWorld Errno.ENOENT
      (by decide)).2.2⟩

/-! ## C2, C1 -/

/-- Shape of the result of `os.Open` on the reference host. -/
theorem posix_Open_cases (w : World) (name : String) :
    (∃ e, posix.Open name w = ((none, some e), w)) ∨
    (∃ d, posix.Open name w =
      ((some (fresh w.fds), none),
        ⟨w.names, w.store, put (fresh w.fds) d w.fds, w.umask, w.fileSizeLimit⟩)) := by
  rcases hr : w.resolve name with e | p
  · exact Or.inl ⟨e, by simp [posix.Open, hr]⟩
  · rcases hl : w.lookupNode p with _ | nd
    · exact Or.inl ⟨Errno.ENOENT, by simp [posix.Open, hr, hl]⟩
    · cases nd with
      | dir perm =>
        cases hp : perm.r
        · exact Or.inl ⟨Errno.EACCES, by simp [posix.Open, hr, hl, hp]⟩
        · exact Or.inr ⟨⟨Target.dir p, false, 0⟩, by simp [posix.Open, hr, hl, hp, World.alloc]⟩
      | file ino perm =>
        cases hp : perm.r
        · exact Or.inl ⟨Errno.EACCES, by simp [posix.Open, hr, hl, hp]⟩
        · exact Or.inr ⟨⟨Target.file ino, false, 0⟩,
            by simp [posix.Open, hr, hl, hp, World.alloc]⟩
      | device ino perm =>
        cases hp : perm.r
        · exact Or.inl ⟨Errno.EACCES, by simp [posix.Open, hr, hl, hp]⟩
        · exact Or.inr ⟨⟨Target.device, false, 0⟩,
            by simp [posix.Open, hr, hl, hp, World.alloc]⟩

/-- Shape of the result of `os.Create` on the reference host. -/
theorem posix_Create_cases (w : World) (name : String) :
    (∃ e, posix.Create name w = ((none, some e), w)) ∨
    (∃ d nm st, posix.Create name w =
      ((some (fresh w.fds), none),
        ⟨nm, st, put (fresh w.fds) d w.fds, w.umask, w.fileSizeLimit⟩)) := by
  rcases hr : w.resolve name with e | p
  · exact Or.inl ⟨e, by simp [posix.Create, hr]⟩
  · rcases hl : w.lookupNode p with _ | nd
    · cases hp : w.parentWritable p
      · exact Or.inl ⟨Errno.EACCES, by simp [posix.Create, hr, hl, hp]⟩
      · exact Or.inr ⟨⟨Target.file w.freshIno, true, 0⟩,
          put p (Node.file w.freshIno w.newFilePerm) w.names, put w.freshIno [] w.store,
          by simp [posix.Create, hr, hl, hp, World.alloc]⟩
    · cases nd with
      | dir perm => exact Or.inl ⟨Errno.EISDIR, by simp [posix.Create, hr, hl]⟩
      | file ino perm =>
        cases hp : (perm.r && perm.w)
        · exact Or.inl ⟨Errno.EACCES, by simp [posix.Create, hr, hl, hp]⟩
        · exact Or.inr ⟨⟨Target.file ino, true, 0⟩, w.names, put ino [] w.store,
            by simp [posix.Create, hr, hl, hp, World.alloc]⟩
      | device ino perm =>
        cases hp : (perm.r && perm.w)
        · exact Or.inl ⟨Errno.EACCES, by simp [posix.Create, hr, hl, hp]⟩
        · exact Or.inr ⟨⟨Target.device, true, 0⟩, w.names, w.store,
            by simp [posix.Create, hr, hl, hp, World.alloc]⟩

/-- C2 (amended): on every host Create and Open return a File whose dynamic
value is the `*os.File` they got, never the nil interface; on the reference
host, when the error is non-nil that pointer is nil and no handle was opened
(the host is unchanged, and every method on the File reports ErrInvalid), and
when the error is nil the pointer is a handle that is open. -/
theorem C2_failed_open_wraps_nil_pointer (w : World) (name : String) :
    (∀ (σ : Type) (os : OS σ) (s : σ),
      (defFS.Create os name s).1.1 ≠ File.nil ∧ (defFS.Open os name s).1.1 ≠ File.nil) ∧
    ((defFS.Create posix name w).1.2 ≠ none →
      (defFS.Create posix name w).1.1 = File.osFile none ∧ (defFS.Create posix name w).2 = w) ∧
    ((defFS.Open posix name w).1.2 ≠ none →
      (defFS.Open posix name w).1.1 = File.osFile none ∧ (defFS.Open posix name w).2 = w) ∧
    ((defFS.Create posix name w).1.2 = none →
      ∃ fd, (defFS.Create posix name w).1.1 = File.osFile (some fd) ∧
        (find fd (defFS.Create posix name w).2.fds).isSome = true) ∧
    ((defFS.Open posix name w).1.2 = none →
      ∃ fd, (defFS.Open posix name w).1.1 = File.osFile (some fd) ∧
        (find fd (defFS.Open posix name w).2.fds).isSome = true) ∧
    (∀ (b : List Byte) (off : Int),
      File.Write posix (File.osFile none) b w = some ((0, some Errno.ErrInvalid), w) ∧
      File.ReadAt posix (File.osFile none) b off w = some (⟨b, 0, some Errno.ErrInvalid⟩, w) ∧
      File.Stat posix (File.osFile none) w = some ((none, some Errno.ErrInvalid), w) ∧
      File.Close posix (File.osFile none) w = some (some Errno.ErrInvalid, w)) := by
  refine ⟨?_, ?_, ?_, ?_, ?_, ?_⟩
  · intro σ os s
    simp [defFS.Create, defFS.Open]
  · rcases posix_Create_cases w name with ⟨e, h⟩ | ⟨d, nm, st, h⟩ <;>
      simp [defFS.Create, posix, h]
  · rcases posix_Open_cases w name with ⟨e, h⟩ | ⟨d, h⟩ <;>
      simp [defFS.Open, posix, h]
  · rcases posix_Create_cases w name with ⟨e, h⟩ | ⟨d, nm, st, h⟩ <;>
      simp [defFS.Create, posix, h, find_put_self]
  · rcases posix_Open_cases w name with ⟨e, h⟩ | ⟨d, h⟩ <;>
      simp [defFS.Open, posix, h, find_put_self]
  · intro b off
    simp [File.Write, File.ReadAt, File.Stat, File.Close, posix, posix.Write, posix.ReadAt,
      posix.Stat, posix.Close]

/-- C2 witness: Open of a missing name fails and wraps the nil pointer; Create
of a new name succeeds with an open handle. -/
theorem C2_failed_open_wraps_nil_pointer_witness :
    ((defFS.Open posix "missing" sampleWorld).1.1 = File.osFile none ∧
      (defFS.Open posix "missing" sampleWorld).2 = sampleWorld) ∧
    (∃ fd, (defFS.Create posix "b" sampleWorld).1.1 = File.osFile (some fd) ∧
      (find fd (defFS.Create posix "b" sampleWorld).2.fds).isSome = true) :=
  ⟨(C2_failed_open_wraps_nil_pointer sampleWorld "missing").2.2.1 (by decide),
    (C2_failed_open_wraps_nil_pointer sampleWorld "b").2.2.2.1 (by decide)⟩

/-- C2 counterexample: Open of a missing name returns a non-nil error together
with a File that is not the nil File. -/
theorem C2_failed_open_not_nil_interface :
    (defFS.Open posix "missing" emptyWorld).1.2 = some Errno.ENOENT ∧
    (defFS.Open posix "missing" emptyWorld).1.1 ≠ File.nil := by
  decide

/-- C1: `a` is an existing regular file of the sample host, readable and writable
by the process; Open returns a File holding handle 1 and no error, yet a Write
of one byte on that File returns 0 and EBADF and leaves the host as it is,
because `os.Open` opens the file for reading only. -/
theorem C1_write_after_open_fails :
    sampleWorld.lookupNode ["a"] = some (Node.file 1 ⟨true, true, false⟩) ∧
    (defFS.Open posix "a" sampleWorld).1 = (File.osFile (some 1), none) ∧
    File.Write posix (defFS.Open posix "a" sampleWorld).1.1 [7]
        (defFS.Open posix "a" sampleWorld).2
      = some ((0, some Errno.EBADF), (defFS.Open posix "a" sampleWorld).2) := by
  decide

/-! ## C8 -/

/-- What a successful `os.Remove` did on the reference host: it dropped the
resolved path from the namespace. -/
theorem posix_Remove_ok (w w1 : World) (name : String) (h : posix.Remove name w = (none, w1)) :
    ∃ p, w.resolve name = Except.ok p ∧ (w.lookupNode p).isSome = true ∧
      w1 = ⟨remove p w.names, w.store, w.fds, w.umask, w.fileSizeLimit⟩ := by
  rcases hr : w.resolve name with e | p
  · simp [posix.Remove, hr] at h
  · rcases hl : w.lookupNode p with _ | nd
    · simp [posix.Remove, hr, hl] at h
    · refine ⟨p, rfl, by rw [hl]; rfl, ?_⟩
      cases nd with
      | dir perm =>
        simp only [posix.Remove, hr, hl] at h
        split_ifs at h with h1 h2 h3 h4 h5
        · simp at h
        · simp at h
        · simp at h
        · simp at h
        · simp at h
        · simp only [Prod.mk.injEq, true_and] at h
          exact h.symm
      | file ino perm =>
        simp only [posix.Remove, hr, hl] at h
        split_ifs at h with h1
        · simp only [Prod.mk.injEq, true_and] at h
          exact h.symm
        · simp at h
      | device ino perm =>
        simp only [posix.Remove, hr, hl] at h
        split_ifs at h with h1
        · simp only [Prod.mk.injEq, true_and] at h
          exact h.symm
        · simp at h

theorem splitSlash_ne_nil (cs : List Char) : splitSlash cs ≠ [] := by
  cases cs with
  | nil => simp [splitSlash]
  | cons c cs =>
    unfold splitSlash
    split
    · simp
    · split <;> simp

theorem splitSlash_append (a b : List Char) :
    splitSlash (a ++ '/' :: b) = splitSlash a ++ splitSlash b := by
  induction a with
  | nil => simp [splitSlash]
  | cons c a ih =>
    by_cases hc : c = '/'
    · simp [splitSlash, hc, ih]
    · rcases hs : splitSlash a with _ | ⟨h, t⟩
      · exact absurd hs (splitSlash_ne_nil a)
      · simp [splitSlash, hc, ih, hs]

theorem splitSlash_of_no_slash (b : List Char) (h : '/' ∉ b) : splitSlash b = [b] := by
  induction b with
  | nil => rfl
  | cons c b ih =>
    have hc : c ≠ '/' := fun h1 => h (by simp [h1])
    have hb : '/' ∉ b := fun h1 => h (by simp [h1])
    simp [splitSlash, hc, ih hb]

theorem components_append (dir n : String) :
    components (dir ++ "/" ++ n) = components dir ++ components n := by
  have h1 : (dir ++ "/" ++ n).data = dir.data ++ '/' :: n.data := by
    simp [String.data_append]
  simp [components, h1, splitSlash_append]

theorem components_ne_nil (n : String) : components n ≠ [] := by
  simp [components, splitSlash_ne_nil]

theorem components_join (dir n : String) (h : '/' ∉ n.data) :
    components (dir ++ "/" ++ n) = components dir ++ [n] := by
  rw [components_append]
  simp [components, splitSlash_of_no_slash n.data h]

theorem walk_append (w : World) (cs ds : List String) :
    ∀ cur : Path, w.walk cur (cs ++ ds) =
      match w.walk cur cs with
      | Except.ok p => w.walk p ds
      | Except.error e => Except.error e := by
  induction cs with
  | nil => intro cur; simp [World.walk]
  | cons c cs ih =>
    intro cur
    simp only [List.cons_append, World.walk]
    rcases w.next cur c with e | q
    · rfl
    · exact ih _

/-- Below a node that is not a directory, resolution stops with ENOTDIR. -/
theorem walk_below_non_dir (w : World) (p : Path) (nd : Node) (cs : List String)
    (hl : w.lookupNode p = some nd) (hnd : ∀ perm, nd ≠ Node.dir perm) (hcs : cs ≠ []) :
    w.walk p cs = Except.error Errno.ENOTDIR := by
  cases cs with
  | nil => exact absurd rfl hcs
  | cons c cs =>
    cases nd with
    | dir perm => exact absurd rfl (hnd perm)
    | file ino perm => simp [World.walk, World.next, hl]
    | device ino perm => simp [World.walk, World.next, hl]

/-- C8 (amended): Remove returns the error of `os.Remove` and Open the error of
`os.Open`, unchanged.  On the reference host, for a name at which path
resolution finds no entry, both fail with the same error and leave the host as
it is: the error is the one at which resolution stopped, ENOENT (the not-found
kind) when resolution reached a directory that has no entry of the final name.
What stops resolution need not be a missing entry: a name with a NUL byte gives
EINVAL and a name below an entry that is not a directory gives ENOTDIR, neither
of the not-found kind.  After a successful Remove(name), Open(name) fails with
ENOENT. -/
theorem C8_missing_name_reports_os_error :
    (∀ (σ : Type) (os : OS σ) (name : String) (s : σ),
      defFS.Remove os name s = os.Remove name s ∧
      (defFS.Open os name s).1.2 = (os.Open name s).1.2 ∧
      (defFS.Open os name s).2 = (os.Open name s).2) ∧
    (∀ (w : World) (name : String),
      (¬ ∃ p nd, w.resolve name = Except.ok p ∧ w.lookupNode p = some nd) →
      ∃ e, (w.resolve name = Except.error e ∨
          (e = Errno.ENOENT ∧ ∃ p, w.resolve name = Except.ok p ∧ w.lookupNode p = none)) ∧
        defFS.Remove posix name w = (some e, w) ∧
        defFS.Open posix name w = ((File.osFile none, some e), w)) ∧
    (∀ (w : World) (name : String), name ≠ "" → Char.ofNat 0 ∈ name.data →
      defFS.Remove posix name w = (some Errno.EINVAL, w) ∧
      defFS.Open posix name w = ((File.osFile none, some Errno.EINVAL), w)) ∧
    (∀ (w : World) (dir n : String) (p : Path) (nd : Node),
      w.resolve dir = Except.ok p → w.lookupNode p = some nd → (∀ perm, nd ≠ Node.dir perm) →
      nameCheck (dir ++ "/" ++ n) = none →
      defFS.Remove posix (dir ++ "/" ++ n) w = (some Errno.ENOTDIR, w) ∧
      defFS.Open posix (dir ++ "/" ++ n) w = ((File.osFile none, some Errno.ENOTDIR), w)) ∧
    (∀ (w w1 : World) (name : String),
      defFS.Remove posix name w = (none, w1) →
        defFS.Open posix name w1 = ((File.osFile none, some Errno.ENOENT), w1)) := by
  refine ⟨?_, ?_, ?_, ?_, ?_⟩
  · intro σ os name s
    simp [defFS.Remove, defFS.Open]
  · intro w name hno
    rcases hr : w.resolve name with e | p
    · refine ⟨e, Or.inl rfl, ?_, ?_⟩
      · simp [defFS.Remove, posix, posix.Remove, hr]
      · simp [defFS.Open, posix, posix.Open, hr]
    · rcases hl : w.lookupNode p with _ | nd
      · refine ⟨Errno.ENOENT, Or.inr ⟨rfl, p, rfl, hl⟩, ?_, ?_⟩
        · simp [defFS.Remove, posix, posix.Remove, hr, hl]
        · simp [defFS.Open, posix, posix.Open, hr, hl]
      · exact absurd ⟨p, nd, hr, hl⟩ hno
  · intro w name hne hnul
    have hr : w.resolve name = Except.error Errno.EINVAL := by
      simp [World.resolve, nameCheck, hne, hnul]
    constructor
    · simp [defFS.Remove, posix, posix.Remove, hr]
    · simp [defFS.Open, posix, posix.Open, hr]
  · intro w dir n p nd hr hl hnd hck
    obtain ⟨-, hwalk⟩ := resolve_ok_walk w dir p hr
    have hr2 : w.resolve (dir ++ "/" ++ n) = Except.error Errno.ENOTDIR := by
      simp [World.resolve, hck, components_append, walk_append, hwalk,
        walk_below_non_dir w p nd _ hl hnd (components_ne_nil n)]
    constructor
    · simp [defFS.Remove, posix, posix.Remove, hr2]
    · simp [defFS.Open, posix, posix.Open, hr2]
  · intro w w1 name h
    obtain ⟨p, hr, -, rfl⟩ := posix_Remove_ok w w1 name h
    obtain ⟨hne, hwalk⟩ := resolve_ok_walk w name p hr
    have hd : ∀ q perm, w.lookupNode q = some (Node.dir perm) →
        World.lookupNode ⟨remove p w.names, w.store, w.fds, w.umask, w.fileSizeLimit⟩ q
          = some (Node.dir perm) ∨
        World.lookupNode ⟨remove p w.names, w.store, w.fds, w.umask, w.fileSizeLimit⟩ q
          = none := by
      intro q perm hq
      rw [lookupNode_remove w p q]
      by_cases hqp : q = p
      · right; simp [hqp]
      · left; simp [hqp, hq]
    rcases walk_of_dirs_kept_or_gone w _ hd _ _ _ hwalk with h1 | h1
    · simp [defFS.Open, posix, posix.Open, World.resolve, hne, h1, lookupNode_remove w p p]
    · simp [defFS.Open, posix, posix.Open, World.resolve, hne, h1]

/-- C8 witness: on the sample host, a missing name, a name with a NUL byte, a
name below the regular file `a`, and a name that was removed. -/
theorem C8_missing_name_reports_os_error_witness :
    (∃ e, defFS.Remove posix "zz" sampleWorld = (some e, sampleWorld) ∧
      defFS.Open posix "zz" sampleWorld = ((File.osFile none, some e), sampleWorld)) ∧
    defFS.Open posix "a\x00b" sampleWorld = ((File.osFile none, some Errno.EINVAL), sampleWorld) ∧
    defFS.Open posix ("a" ++ "/" ++ "b") sampleWorld
      = ((File.osFile none, some Errno.ENOTDIR), sampleWorld) ∧
    defFS.Open posix "a" (defFS.Remove posix "a" sampleWorld).2
      = ((File.osFile none, some Errno.ENOENT), (defFS.Remove posix "a" sampleWorld).2) := by
  refine ⟨?_,
    (C8_missing_name_reports_os_error.2.2.1 sampleWorld "a\x00b" (by decide) (by decide)).2,
    (C8_missing_name_reports_os_error.2.2.2.1 sampleWorld "a" "b" ["a"]
      (Node.file 1 ⟨true, true, false⟩) (by rfl) (by decide) (by intro perm; simp)
      (by decide)).2,
    C8_missing_name_reports_os_error.2.2.2.2 sampleWorld _ "a" (by decide)⟩
  obtain ⟨e, -, h1, h2⟩ := C8_missing_name_reports_os_error.2.1 sampleWorld "zz" (by
    rintro ⟨p, nd, h1, h2⟩
    have h3 : sampleWorld.resolve "zz" = Except.ok ["zz"] := by rfl
    rw [h3] at h1
    simp only [Except.ok.injEq] at h1
    subst h1
    have h4 : sampleWorld.lookupNode ["zz"] = none := by decide
    rw [h4] at h2
    exact absurd h2 (by simp))
  exact ⟨e, h1, h2⟩

/-- C8 counterexample: on the sample host `a/b` (below the regular file `a`) and
a name with a NUL byte resolve to no existing file, and Open and Remove report
ENOTDIR and EINVAL for them, neither of which is of the not-found kind. -/
theorem C8_enotdir_is_not_not_found :
    sampleWorld.resolve "a/b" = Except.error Errno.ENOTDIR ∧
    (defFS.Open posix "a/b" sampleWorld).1.2 = some Errno.ENOTDIR ∧
    (defFS.Remove posix "a/b" sampleWorld).1 = some Errno.ENOTDIR ∧
    Errno.isNotExist Errno.ENOTDIR = false ∧
    sampleWorld.resolve "a\x00b" = Except.error Errno.EINVAL ∧
    (defFS.Open posix "a\x00b" sampleWorld).1.2 = some Errno.EINVAL ∧
    (defFS.Remove posix "a\x00b" sampleWorld).1 = some Errno.EINVAL ∧
    Errno.isNotExist Errno.EINVAL = false :=
  ⟨by rfl, by decide, by decide, by decide, by rfl, by decide, by decide, by decide⟩

/-! ## C6, C7 -/

theorem lookupNode_of_names (w w1 : World) (h : w1.names = w.names) (q : Path) :
    w1.lookupNode q = w.lookupNode q := by
  simp [World.lookupNode, h]

theorem walk_of_names (w w1 : World) (h : w1.names = w.names) (cs : List String) :
    ∀ cur : Path, w1.walk cur cs = w.walk cur cs := by
  induction cs with
  | nil => intro cur; rfl
  | cons c cs ih =>
    intro cur
    simp only [World.walk, next_of_lookup_eq w w1 cur c (lookupNode_of_names w w1 h cur)]
    rcases w.next cur c with e | q
    · rfl
    · exact ih q

theorem resolve_of_names (w w1 : World) (h : w1.names = w.names) (name : String) :
    w1.resolve name = w.resolve name := by
  simp only [World.resolve, walk_of_names w w1 h]

/-- What a successful `os.Create` did on the reference host: the name resolves
as before, to a regular file that is now empty or to a device, and the handle
returned is open on it for reading and writing at offset 0. -/
theorem posix_Create_ok (w w1 : World) (name : String) (f : OsFile)
    (h : posix.Create name w = ((f, none), w1)) :
    ∃ p, w.resolve name = Except.ok p ∧ w1.resolve name = Except.ok p ∧
      f = some (fresh w.fds) ∧ w1.umask = w.umask ∧ w1.fileSizeLimit = w.fileSizeLimit ∧
      ((∃ ino perm, w1.lookupNode p = some (Node.file ino perm) ∧
          w1.store = put ino [] w.store ∧
          w1.fds = put (fresh w.fds) ⟨Target.file ino, true, 0⟩ w.fds) ∨
        (∃ ino perm, w1.lookupNode p = some (Node.device ino perm) ∧
          w1.store = w.store ∧
          w1.fds = put (fresh w.fds) ⟨Target.device, true, 0⟩ w.fds)) ∧
      (∀ q perm, w.lookupNode q = some (Node.dir perm) →
        w1.lookupNode q = some (Node.dir perm)) ∧
      (∀ e ∈ w1.names, e ∈ w.names ∨ e.1 = p) := by
  rcases hr : w.resolve name with e | p
  · simp [posix.Create, hr] at h
  · rcases hl : w.lookupNode p with _ | nd
    · cases hp : w.parentWritable p
      · simp [posix.Create, hr, hl, hp] at h
      · simp only [posix.Create, hr, hl, hp, if_true, World.alloc, Prod.mk.injEq,
          and_true] at h
        obtain ⟨rfl, rfl⟩ := h
        have hd : ∀ q perm, w.lookupNode q = some (Node.dir perm) →
            World.lookupNode ⟨put p (Node.file w.freshIno w.newFilePerm) w.names,
              put w.freshIno [] w.store,
              put (fresh w.fds) ⟨Target.file w.freshIno, true, 0⟩ w.fds, w.umask,
              w.fileSizeLimit⟩ q = some (Node.dir perm) := by
          intro q perm hq
          rw [lookupNode_put w p q]
          by_cases hqp : q = p
          · rw [hqp, hl] at hq
            simp at hq
          · simp [hqp, hq]
        refine ⟨p, rfl, resolve_of_dirs_kept w _ name p hd hr, rfl, rfl, rfl,
          Or.inl ⟨w.freshIno, w.newFilePerm, ?_, rfl, rfl⟩, hd, ?_⟩
        · rw [lookupNode_put w p p]
          simp
        · intro e he
          simp only [put, List.mem_cons] at he
          rcases he with rfl | he
          · exact Or.inr rfl
          · exact Or.inl (List.mem_of_mem_filter he)
    · cases nd with
      | dir perm => simp [posix.Create, hr, hl] at h
      | file ino perm =>
        cases hp : (perm.r && perm.w)
        · simp [posix.Create, hr, hl, hp] at h
        · simp only [posix.Create, hr, hl, hp, if_true, World.alloc, Prod.mk.injEq,
            and_true] at h
          obtain ⟨rfl, rfl⟩ := h
          exact ⟨p, rfl, resolve_of_dirs_kept w _ name p (fun q perm hq => hq) hr, rfl, rfl, rfl,
            Or.inl ⟨ino, perm, hl, rfl, rfl⟩, fun q perm hq => hq, fun e he => Or.inl he⟩
      | device ino perm =>
        cases hp : (perm.r && perm.w)
        · simp [posix.Create, hr, hl, hp] at h
        · simp only [posix.Create, hr, hl, hp, if_true, World.alloc, Prod.mk.injEq,
            and_true] at h
          obtain ⟨rfl, rfl⟩ := h
          exact ⟨p, rfl, resolve_of_dirs_kept w _ name p (fun q perm hq => hq) hr, rfl, rfl, rfl,
            Or.inr ⟨ino, perm, hl, rfl, rfl⟩, fun q perm hq => hq, fun e he => Or.inl he⟩

/-- A successful Create on a name that denotes a regular file afterwards: the
file is empty and the handle is open on it. -/
theorem posix_Create_regular (w w1 : World) (name : String) (f : OsFile)
    (h : posix.Create name w = ((f, none), w1)) (hreg : w1.isRegular name) :
    ∃ p ino perm, w1.resolve name = Except.ok p ∧ f = some (fresh w.fds) ∧
      w1.lookupNode p = some (Node.file ino perm) ∧ w1.content ino = [] ∧
      find (fresh w.fds) w1.fds = some ⟨Target.file ino, true, 0⟩ := by
  obtain ⟨p, -, hr1, hf, -, -, hcase, -, -⟩ := posix_Create_ok w w1 name f h
  obtain ⟨p', ino', perm', hr', hl'⟩ := hreg
  rw [hr1] at hr'
  simp only [Except.ok.injEq] at hr'
  subst hr'
  rcases hcase with ⟨ino, perm, hl, hst, hfds⟩ | ⟨ino, perm, hl, -, -⟩
  · refine ⟨p, ino, perm, hr1, hf, hl, ?_, ?_⟩
    · simp [World.content, hst, find_put_self]
    · simp [hfds, find_put_self]
  · rw [hl] at hl'
    simp at hl'

/-- A Write through a handle open for writing at offset 0 on an empty regular
file: it succeeds exactly when the bytes fit below the size limit, and then the
file holds them. -/
theorem posix_Write_fresh (w : World) (fd ino : Nat) (b : List Byte)
    (hfd : find fd w.fds = some ⟨Target.file ino, true, 0⟩) (hc : w.content ino = []) :
    ∃ n e w2, posix.Write (some fd) b w = ((n, e), w2) ∧ w2.names = w.names ∧
      (∃ off, find fd w2.fds = some ⟨Target.file ino, true, off⟩) ∧
      (e = none ↔ b.length ≤ w.sizeLimit) ∧
      (e = none → n = b.length ∧ w2.content ino = b) := by
  by_cases hb : b = []
  · subst hb
    exact ⟨0, none, w, by simp [posix.Write, hfd], rfl, ⟨0, hfd⟩, by simp,
      fun _ => ⟨rfl, hc⟩⟩
  · by_cases hfit : b.length ≤ w.sizeLimit
    · refine ⟨b.length, none,
        ⟨w.names, put ino (writeAt (w.content ino) 0 b) w.store,
          put fd ⟨Target.file ino, true, b.length⟩ w.fds, w.umask, w.fileSizeLimit⟩,
        by simp [posix.Write, hfd, hb, hfit], rfl, ⟨b.length, by simp [find_put_self]⟩,
        by simp [hfit], fun _ => ⟨rfl, ?_⟩⟩
      have hc2 : (find ino w.store).getD [] = [] := hc
      simp [World.content, find_put_self, writeAt, hc2]
    · by_cases hz : w.sizeLimit = 0
      · exact ⟨0, some Errno.EFBIG, w, by simp [posix.Write, hfd, hb, hfit, hz], rfl,
          ⟨0, hfd⟩, by simp [hfit], by simp⟩
      · exact ⟨w.sizeLimit, some Errno.EFBIG,
          ⟨w.names, put ino (writeAt (w.content ino) 0 (b.take w.sizeLimit)) w.store,
            put fd ⟨Target.file ino, true, w.sizeLimit⟩ w.fds, w.umask, w.fileSizeLimit⟩,
          by simp [posix.Write, hfd, hb, hfit, hz], rfl,
          ⟨w.sizeLimit, by simp [find_put_self]⟩, by simp [hfit], by simp⟩

theorem sizeLimit_le (w : World) : w.sizeLimit ≤ maxInt64 := by
  simp [World.sizeLimit]

/-- A ReadAt from offset 0 through a handle open on a regular file. -/
theorem posix_ReadAt_zero (w : World) (fd ino : Nat) (d : Desc) (buf : List Byte)
    (hfd : find fd w.fds = some d) (ht : d.target = Target.file ino)
    (hbuf : buf.length ≤ maxInt64) :
    posix.ReadAt (some fd) buf 0 w =
      (⟨(w.content ino).take buf.length ++ buf.drop ((w.content ino).take buf.length).length,
        ((w.content ino).take buf.length).length,
        if ((w.content ino).take buf.length).length < buf.length then some Errno.EOF
        else none⟩, w) := by
  by_cases hb : buf = []
  · subst hb
    simp [posix.ReadAt]
  · have h1 : ¬ ((maxInt64 : Int) < 0 + (buf.length : Int)) := by
      have : (buf.length : Int) ≤ (maxInt64 : Int) := by exact_mod_cast hbuf
      omega
    simp only [posix.ReadAt, lt_self_iff_false, if_false, hb, hfd, h1, ht]
    simp

/-- C6 (amended): when Create(name) succeeds on the reference host and the name
then denotes a regular file, whatever the file held before, the file has length
zero, the returned File holds a handle open on it at offset 0 whose Stat reports
size zero, and after a Write of bytes `b` on it that reports no error the count
is `len(b)` and a ReadAt from offset 0 yields the bytes of `b` and nothing else:
with `len(buf) = len(b)` the buffer is `b`, the count `len(b)`, the error nil. -/
theorem C6_create_truncates (w w1 : World) (name : String) (f : File)
    (h : defFS.Create posix name w = ((f, none), w1)) (hreg : w1.isRegular name) :
    ∃ fd p ino perm, f = File.osFile (some fd) ∧
      w1.resolve name = Except.ok p ∧ w1.lookupNode p = some (Node.file ino perm) ∧
      w1.content ino = [] ∧
      find fd w1.fds = some ⟨Target.file ino, true, 0⟩ ∧
      File.Stat posix f w1 = some ((some ⟨0, false⟩, none), w1) ∧
      ∀ b : List Byte, ∃ n e w2,
        File.Write posix f b w1 = some ((n, e), w2) ∧
        (e = none → n = b.length ∧ w2.content ino = b ∧
          (∀ buf : List Byte, buf.length = b.length →
            File.ReadAt posix f buf 0 w2 = some (⟨b, b.length, none⟩, w2)) ∧
          (∀ buf : List Byte, buf.length ≤ maxInt64 →
            File.ReadAt posix f buf 0 w2 =
              some (⟨b.take buf.length ++ buf.drop (b.take buf.length).length,
                (b.take buf.length).length,
                if (b.take buf.length).length < buf.length then some Errno.EOF
                else none⟩, w2))) := by
  rcases hc : posix.Create name w with ⟨⟨g, e⟩, w'⟩
  simp only [defFS.Create, posix, hc, Prod.mk.injEq] at h
  obtain ⟨⟨rfl, rfl⟩, rfl⟩ := h
  obtain ⟨p, ino, perm, hr, rfl, hl, hcont, hfd⟩ := posix_Create_regular w w' name g hc hreg
  refine ⟨fresh w.fds, p, ino, perm, rfl, hr, hl, hcont, hfd, ?_, ?_⟩
  · have hc2 : (find ino w'.store).getD [] = [] := hcont
    simp [File.Stat, posix, posix.Stat, hfd, World.content, hc2]
  · intro b
    obtain ⟨n, e, w2, hw, -, ⟨off, hfd2⟩, hiff, hok⟩ :=
      posix_Write_fresh w' (fresh w.fds) ino b hfd hcont
    refine ⟨n, e, w2, by simp [File.Write, posix, hw], ?_⟩
    intro he
    obtain ⟨hn, hcont2⟩ := hok he
    have hfit : b.length ≤ maxInt64 := le_trans (hiff.mp he) (sizeLimit_le w')
    refine ⟨hn, hcont2, ?_, ?_⟩
    · intro buf hbuf
      have := posix_ReadAt_zero w2 (fresh w.fds) ino _ buf hfd2 rfl (by rw [hbuf]; exact hfit)
      simp only [File.ReadAt, posix, this, hcont2, hbuf]
      simp [hbuf]
    · intro buf hbuf
      have := posix_ReadAt_zero w2 (fresh w.fds) ino _ buf hfd2 rfl hbuf
      simp only [File.ReadAt, posix, this, hcont2]

/-- C6 witness: Create of the existing file `a`, which held three bytes, then a
Write of two bytes and a ReadAt of two bytes. -/
theorem C6_create_truncates_witness :
    ∃ fd ino w2,
      (defFS.Create posix "a" sampleWorld).2.content ino = [] ∧
      File.Write posix (File.osFile (some fd)) [8, 9] (defFS.Create posix "a" sampleWorld).2
        = some ((2, none), w2) ∧
      File.ReadAt posix (File.osFile (some fd)) [0, 0] 0 w2 = some (⟨[8, 9], 2, none⟩, w2) := by
  obtain ⟨fd, p, ino, perm, hf, -, -, h1, -, -, h2⟩ :=
    C6_create_truncates sampleWorld (defFS.Create posix "a" sampleWorld).2 "a"
      (defFS.Create posix "a" sampleWorld).1.1 (by decide)
      ⟨["a"], 1, ⟨true, true, false⟩, by rfl, by decide⟩
  obtain ⟨n, e, w2, h3, h5⟩ := h2 [8, 9]
  rw [hf] at h3
  have h7 : (File.Write posix (File.osFile (some 1)) [8, 9]
      (defFS.Create posix "a" sampleWorld).2).map (fun r => r.1.2) = some none := by decide
  have hfd : fd = 1 := by
    have h8 : (defFS.Create posix "a" sampleWorld).1.1 = File.osFile (some 1) := by decide
    rw [hf] at h8
    simpa using h8
  subst hfd
  rw [h3] at h7
  simp only [Option.map_some', Option.some.injEq] at h7
  subst h7
  obtain ⟨hn, -, h6, -⟩ := h5 rfl
  rw [hf] at h6
  exact ⟨1, ino, w2, h1, by rw [h3, hn]; rfl, h6 [0, 0] rfl⟩

/-- C6 counterexample: Create of `/dev/null` succeeds and a Write of five bytes
on the returned File returns 5 and no error, yet a ReadAt from offset 0 yields
no byte: the buffer is untouched, the count 0 and the error EOF. -/
theorem C6_device_reads_back_nothing :
    (defFS.Create posix "/dev/null" deviceWorld).1 = (File.osFile (some 1), none) ∧
    File.Write posix (File.osFile (some 1)) hello (defFS.Create posix "/dev/null" deviceWorld).2
      = some ((5, none), (defFS.Create posix "/dev/null" deviceWorld).2) ∧
    File.ReadAt posix (File.osFile (some 1)) [0, 0, 0, 0, 0] 0
        (defFS.Create posix "/dev/null" deviceWorld).2
      = some (⟨[0, 0, 0, 0, 0], 0, some Errno.EOF⟩,
          (defFS.Create posix "/dev/null" deviceWorld).2) := by
  decide

/-- C7 (amended): on the reference host, for every name for which Create
succeeds and which then denotes a regular file, and for every byte sequence
`b`, the scenario Create; Write(b); Close; Open; ReadAt(buf, 0) with
`len(buf) = len(b)` runs to its end, and when none of Write, Close and Open
reports an error it ends with `buf` equal to `b`, the count `len(b)` and a nil
error. -/
theorem C7_round_trip (w : World) (name : String) (b : List Byte)
    (h1 : (defFS.Create posix name w).1.2 = none)
    (h2 : (defFS.Create posix name w).2.isRegular name) :
    ∃ r, roundTrip posix name b w = some r ∧ r.createErr = none ∧
      (r.writeErr = none → r.closeErr = none → r.openErr = none →
        r.read = ⟨b, b.length, none⟩) := by
  rcases hc : posix.Create name w with ⟨⟨g, e⟩, w1⟩
  simp only [defFS.Create, posix, hc] at h1 h2
  subst h1
  obtain ⟨-, -, -, -, -, hlim, -, -, -⟩ := posix_Create_ok w w1 name g hc
  obtain ⟨p, ino, perm, hr, rfl, hl, hcont, hfd⟩ := posix_Create_regular w w1 name g hc h2
  obtain ⟨n, e2, w2, hw, hnames, ⟨off, hfd2⟩, hiff, hok⟩ :=
    posix_Write_fresh w1 (fresh w.fds) ino b hfd hcont
  have hsl : w1.sizeLimit = w.sizeLimit := by simp [World.sizeLimit, hlim]
  rw [hsl] at hiff
  have hclose : posix.Close (some (fresh w.fds)) w2 =
      (none, ⟨w2.names, w2.store, remove (fresh w.fds) w2.fds, w2.umask, w2.fileSizeLimit⟩) := by
    simp [posix.Close, hfd2]
  have hr3 : World.resolve
      ⟨w2.names, w2.store, remove (fresh w.fds) w2.fds, w2.umask, w2.fileSizeLimit⟩ name
        = Except.ok p := by
    exact (resolve_of_names w1
      ⟨w2.names, w2.store, remove (fresh w.fds) w2.fds, w2.umask, w2.fileSizeLimit⟩
      hnames name).trans hr
  have hl3 : World.lookupNode
      ⟨w2.names, w2.store, remove (fresh w.fds) w2.fds, w2.umask, w2.fileSizeLimit⟩ p
        = some (Node.file ino perm) := by
    exact (lookupNode_of_names w1
      ⟨w2.names, w2.store, remove (fresh w.fds) w2.fds, w2.umask, w2.fileSizeLimit⟩
      hnames p).trans hl
  cases hp : perm.r
  · refine ⟨⟨none, e2, none, some Errno.EACCES,
      ⟨List.replicate b.length 0, 0, some Errno.ErrInvalid⟩⟩, ?_, rfl, ?_⟩
    · simp [roundTrip, defFS.Create, defFS.Open, posix, hc, File.Write, hw, File.Close, hclose,
        File.ReadAt, posix.Open, hr3, hl3, hp, posix.ReadAt]
    · intro _ _ h
      simp at h
  · have hread := posix_ReadAt_zero
      ⟨w2.names, w2.store,
        put (fresh (remove (fresh w.fds) w2.fds)) ⟨Target.file ino, false, 0⟩
          (remove (fresh w.fds) w2.fds), w2.umask, w2.fileSizeLimit⟩
      (fresh (remove (fresh w.fds) w2.fds)) ino ⟨Target.file ino, false, 0⟩
      (List.replicate b.length 0) (by simp [find_put_self]) rfl
    by_cases he : e2 = none
    · have hfit : (List.replicate b.length (0 : Byte)).length ≤ maxInt64 := by
        simp only [List.length_replicate]
        exact le_trans (hiff.mp he) (sizeLimit_le w)
      obtain ⟨-, hcont2⟩ := hok he
      have hcont3 : World.content
          ⟨w2.names, w2.store,
            put (fresh (remove (fresh w.fds) w2.fds)) ⟨Target.file ino, false, 0⟩
              (remove (fresh w.fds) w2.fds), w2.umask, w2.fileSizeLimit⟩ ino = b := hcont2
      refine ⟨⟨none, e2, none, none, ⟨b, b.length, none⟩⟩, ?_, rfl, fun _ _ _ => rfl⟩
      simp [roundTrip, defFS.Create, defFS.Open, posix, hc, File.Write, hw, File.Close, hclose,
        File.ReadAt, posix.Open, hr3, hl3, hp, World.alloc, hread hfit, hcont3]
    · rcases hro : roundTrip posix name b w with _ | r
      · simp [roundTrip, defFS.Create, defFS.Open, posix, hc, File.Write, hw, File.Close,
          hclose, File.ReadAt] at hro
      · have hfields : r.createErr = none ∧ r.writeErr = e2 ∧ r.closeErr = none := by
          simp only [roundTrip, defFS.Create, defFS.Open, posix, hc, File.Write, hw,
            File.Close, hclose, File.ReadAt, Option.some.injEq] at hro
          subst hro
          exact ⟨rfl, rfl, rfl⟩
        refine ⟨r, rfl, hfields.1, ?_⟩
        intro h
        rw [hfields.2.1] at h
        exact absurd h he

/-- C7 witness: name `a`, bytes of the word hello, on the empty host. -/
theorem C7_round_trip_witness :
    ∃ r, roundTrip posix "a" hello emptyWorld = some r ∧ r.read = ⟨hello, 5, none⟩ := by
  obtain ⟨r, h1, -, h3⟩ := C7_round_trip emptyWorld "a" hello (by decide)
    ⟨["a"], 1, ⟨true, true, false⟩, by rfl, by decide⟩
  have h4 : (roundTrip posix "a" hello emptyWorld).map
      (fun r => (r.writeErr, r.closeErr, r.openErr)) = some (none, none, none) := by decide
  rw [h1] at h4
  simp only [Option.map_some', Option.some.injEq, Prod.mk.injEq] at h4
  exact ⟨r, h1, h3 h4.1 h4.2.1 h4.2.2⟩

/-- C7 counterexample: the scenario does not end with `buf` equal to `b` and no
error for the name `d/a` on a host without a directory `d` (Create fails), for
`/dev/null` (Create succeeds on a device, which gives no byte back), nor for
`a` under umask 0777 (Create and Write succeed, the Open after Close is denied). -/
theorem C7_round_trip_fails :
    (roundTrip posix "d/a" hello emptyWorld).map (fun r => (r.createErr, r.read))
      = some (some Errno.ENOENT, ⟨[0, 0, 0, 0, 0], 0, some Errno.ErrInvalid⟩) ∧
    roundTrip posix "/dev/null" hello deviceWorld
      = some ⟨none, none, none, none, ⟨[0, 0, 0, 0, 0], 0, some Errno.EOF⟩⟩ ∧
    roundTrip posix "a" hello maskedWorld
      = some ⟨none, none, none, some Errno.EACCES,
          ⟨[0, 0, 0, 0, 0], 0, some Errno.ErrInvalid⟩⟩ := by
  decide

/-! ## C4 -/

theorem next_proper (w : World) (cur q : Path) (n : String) (hn : properName n)
    (h : w.next cur n = Except.ok q) : q = n :: cur := by
  obtain ⟨h1, h2, h3, -⟩ := hn
  unfold World.next at h
  split at h
  · simp at h
  · simp only [h1, h2, h3, if_false] at h
    split_ifs at h
    simp only [Except.ok.injEq] at h
    exact h.symm
  · simp at h

/-- A name directly below a resolved directory, when it resolves, resolves to
the entry of that name in the directory. -/
theorem resolve_join (w : World) (dir n : String) (p p' : Path) (hn : properName n)
    (hr : w.resolve dir = Except.ok p) (hr' : w.resolve (dir ++ "/" ++ n) = Except.ok p') :
    p' = n :: p := by
  obtain ⟨-, hwalk⟩ := resolve_ok_walk w dir p hr
  obtain ⟨-, hwalk'⟩ := resolve_ok_walk w _ p' hr'
  rw [components_join dir n hn.2.2.2, walk_append, hwalk] at hwalk'
  simp only [World.walk] at hwalk'
  rcases hnx : w.next p n with e | q
  · rw [hnx] at hwalk'
    simp at hwalk'
  · rw [hnx] at hwalk'
    simp only [Except.ok.injEq] at hwalk'
    rw [← hwalk']
    exact next_proper w p q n hn hnx

theorem mem_children (w : World) (p : Path) (n : String) :
    n ∈ w.children p ↔ (w.lookupNode (n :: p)).isSome = true := by
  rw [World.lookupNode, ← Option.ne_none_iff_isSome, Ne, find_eq_none_iff]
  simp only [World.children, List.mem_filterMap, not_forall, not_not]
  constructor
  · rintro ⟨e, he, hf⟩
    refine ⟨e, he, ?_⟩
    rcases hk : e.1 with _ | ⟨m, q⟩
    · simp [hk] at hf
    · simp only [hk] at hf
      split_ifs at hf with hq
      simp only [Option.some.injEq] at hf
      rw [hf, hq]
  · rintro ⟨e, he, hk⟩
    exact ⟨e, he, by simp [hk]⟩

/-- List of an existing directory that the process may read returns its entries. -/
theorem list_posix_dir (w : World) (dir : String) (p : Path) (perm : Perm)
    (hr : w.resolve dir = Except.ok p) (hl : w.lookupNode p = some (Node.dir perm))
    (hp : perm.r = true) :
    (defFS.List posix dir w).1 = (some (w.children p), none) := by
  simp [defFS.List, posix, posix.Open, hr, hl, hp, World.alloc, posix.Readdirnames,
    find_put_self, World.children]

/-- Whatever names List returns on the reference host are the entries of the
directory the name resolves to. -/
theorem list_posix_names (w : World) (dir : String) (l : List String)
    (h : (defFS.List posix dir w).1.1 = some l) :
    l = [] ∨ ∃ p, w.resolve dir = Except.ok p ∧ l = w.children p := by
  rcases hr : w.resolve dir with e | p
  · simp [defFS.List, posix, posix.Open, hr] at h
  · rcases hl : w.lookupNode p with _ | nd
    · simp [defFS.List, posix, posix.Open, hr, hl] at h
    · cases nd with
      | dir perm =>
        cases hp : perm.r
        · simp [defFS.List, posix, posix.Open, hr, hl, hp] at h
        · rw [list_posix_dir w dir p perm hr hl hp] at h
          simp only [Option.some.injEq] at h
          exact Or.inr ⟨p, rfl, h.symm⟩
      | file ino perm =>
        cases hp : perm.r
        · simp [defFS.List, posix, posix.Open, hr, hl, hp] at h
        · simp [defFS.List, posix, posix.Open, hr, hl, hp, World.alloc, posix.Readdirnames,
            find_put_self] at h
          exact Or.inl h
      | device ino perm =>
        cases hp : perm.r
        · simp [defFS.List, posix, posix.Open, hr, hl, hp] at h
        · simp [defFS.List, posix, posix.Open, hr, hl, hp, World.alloc, posix.Readdirnames,
            find_put_self] at h
          exact Or.inl h

/-- A successful List of an existing directory returned its entries. -/
theorem list_posix_ok (w : World) (dir : String) (p : Path) (perm : Perm) (l : List String)
    (hr : w.resolve dir = Except.ok p) (hl : w.lookupNode p = some (Node.dir perm))
    (h : (defFS.List posix dir w).1 = (some l, none)) : l = w.children p := by
  cases hp : perm.r
  · simp [defFS.List, posix, posix.Open, hr, hl, hp] at h
  · rw [list_posix_dir w dir p perm hr hl hp] at h
    simp only [Prod.mk.injEq, Option.some.injEq, and_true] at h
    exact h.symm

theorem splitSlash_no_slash (cs : List Char) : ∀ s ∈ splitSlash cs, '/' ∉ s := by
  induction cs with
  | nil => simp [splitSlash]
  | cons c cs ih =>
    by_cases hc : c = '/'
    · intro s hs
      simp only [splitSlash, hc, if_true, List.mem_cons] at hs
      rcases hs with rfl | hs
      · simp
      · exact ih s hs
    · rcases hsp : splitSlash cs with _ | ⟨h, t⟩
      · exact absurd hsp (splitSlash_ne_nil cs)
      · intro s hs
        rw [hsp] at ih
        simp only [splitSlash, hc, if_false, hsp, List.mem_cons] at hs
        rcases hs with rfl | hs
        · have := ih h (by simp)
          simp [Ne.symm hc, this]
        · exact ih s (by simp [hs])

theorem components_no_slash (name : String) : ∀ c ∈ components name, '/' ∉ c.data := by
  intro c hc
  simp only [components, List.mem_map] at hc
  obtain ⟨s, hs, rfl⟩ := hc
  exact splitSlash_no_slash _ s hs

/-- Path resolution only produces paths made of entry names. -/
theorem walk_proper (w : World) (cs : List String) (hcs : ∀ c ∈ cs, '/' ∉ c.data) :
    ∀ (cur p : Path), (∀ c ∈ cur, properName c) → w.walk cur cs = Except.ok p →
      ∀ c ∈ p, properName c := by
  induction cs with
  | nil =>
    intro cur p hcur h
    simp only [World.walk, Except.ok.injEq] at h
    exact h ▸ hcur
  | cons c cs ih =>
    intro cur p hcur h
    unfold World.walk at h
    rcases hn : w.next cur c with e | q
    · rw [hn] at h; simp at h
    · rw [hn] at h
      refine ih (fun d hd => hcs d (by simp [hd])) _ _ ?_ h
      intro d hd
      unfold World.next at hn
      split at hn
      · simp at hn
      · split_ifs at hn with h1 h2 h3 h4 h5
        all_goals simp only [Except.ok.injEq] at hn
        · exact hcur d (hn ▸ hd)
        · exact hcur d (hn ▸ hd)
        · exact hcur d (List.mem_of_mem_tail (hn ▸ hd))
        · rw [← hn] at hd
          simp only [List.mem_cons] at hd
          rcases hd with rfl | hd
          · exact ⟨h1, h3, h4, hcs d (by simp)⟩
          · exact hcur d hd
      · simp at hn

/-- Create keeps the namespace made of entry names. -/
theorem wellNamed_Create (w : World) (name : String) (hw : w.wellNamed) :
    (posix.Create name w).2.wellNamed := by
  rcases hc : posix.Create name w with ⟨⟨f, e⟩, w1⟩
  cases e with
  | some e =>
    rcases posix_Create_cases w name with ⟨e1, h⟩ | ⟨d, nm, st, h⟩
    · rw [hc] at h
      simp only [Prod.mk.injEq] at h
      rw [h.2]
      exact hw
    · rw [hc] at h
      simp at h
  | none =>
    obtain ⟨p, hr, -, -, -, -, -, -, hnames⟩ := posix_Create_ok w w1 name f hc
    obtain ⟨-, hwalk⟩ := resolve_ok_walk w name p hr
    have hp := walk_proper w _ (components_no_slash name) [] p (by simp) hwalk
    intro e he c hce
    rcases hnames e he with h | h
    · exact hw e h c hce
    · exact hp c (h ▸ hce)

theorem posix_Remove_names (w : World) (name : String) :
    ∀ e ∈ (posix.Remove name w).2.names, e ∈ w.names := by
  intro e he
  unfold posix.Remove at he
  split at he
  · exact he
  · split at he
    · exact he
    · split_ifs at he
      all_goals first | exact he | exact List.mem_of_mem_filter he
    · split_ifs at he
      all_goals first | exact he | exact List.mem_of_mem_filter he

/-- Remove keeps the namespace made of entry names. -/
theorem wellNamed_Remove (w : World) (name : String) (hw : w.wellNamed) :
    (posix.Remove name w).2.wellNamed :=
  fun e he c hce => hw e (posix_Remove_names w name e he) c hce

/-- C4: for an existing directory of the reference host, a successful List
returns the names of the entries directly inside it, and List succeeds when the
process may read the directory: a name is listed exactly when the directory has
an entry of that name, and on a namespace made of entry names every listed name
is a single component.  After Create of `dir/n` succeeds, every successful
List(dir) lists `n` (and List succeeds when the directory is readable); after
Remove of `dir/n` succeeds, no listing that List(dir) returns contains `n`. -/
theorem C4_list_is_directory_content (w : World) (dir : String) (p : Path) (perm : Perm)
    (hr : w.resolve dir = Except.ok p) (hl : w.lookupNode p = some (Node.dir perm)) :
    (∀ l, (defFS.List posix dir w).1 = (some l, none) → l = w.children p) ∧
    (perm.r = true → (defFS.List posix dir w).1 = (some (w.children p), none)) ∧
    (∀ n, n ∈ w.children p ↔ (w.lookupNode (n :: p)).isSome = true) ∧
    (w.wellNamed → ∀ n ∈ w.children p, properName n) ∧
    (∀ (n : String) (f : File) (w1 : World), properName n →
      defFS.Create posix (dir ++ "/" ++ n) w = ((f, none), w1) →
        (∀ l, (defFS.List posix dir w1).1 = (some l, none) → n ∈ l) ∧
        (perm.r = true → ∃ l, (defFS.List posix dir w1).1 = (some l, none) ∧ n ∈ l)) ∧
    (∀ (n : String) (w1 : World), properName n →
      defFS.Remove posix (dir ++ "/" ++ n) w = (none, w1) →
        ∀ l, (defFS.List posix dir w1).1.1 = some l → n ∉ l) := by
  refine ⟨fun l h => list_posix_ok w dir p perm l hr hl h, list_posix_dir w dir p perm hr hl,
    mem_children w p, ?_, ?_, ?_⟩
  · intro hw n hn
    simp only [World.children, List.mem_filterMap] at hn
    obtain ⟨e, he, hf⟩ := hn
    rcases hk : e.1 with _ | ⟨m, q⟩
    · simp [hk] at hf
    · simp only [hk] at hf
      split_ifs at hf with hq
      simp only [Option.some.injEq] at hf
      exact hw e he n (by simp [hk, hf])
  · intro n f w1 hn hc
    rcases hpc : posix.Create (dir ++ "/" ++ n) w with ⟨⟨g, e⟩, w'⟩
    simp only [defFS.Create, posix, hpc, Prod.mk.injEq] at hc
    obtain ⟨⟨rfl, rfl⟩, rfl⟩ := hc
    obtain ⟨p', hr', -, -, -, -, hcase, hd, -⟩ := posix_Create_ok w w' _ g hpc
    have hp' := resolve_join w dir n p p' hn hr hr'
    subst hp'
    have hmem : n ∈ w'.children p := by
      rw [mem_children]
      rcases hcase with ⟨ino, pm, h1, -, -⟩ | ⟨ino, pm, h1, -, -⟩ <;> simp [h1]
    have hr1 := resolve_of_dirs_kept w w' dir p hd hr
    constructor
    · intro l hlist
      rw [list_posix_ok w' dir p perm l hr1 (hd p perm hl) hlist]
      exact hmem
    · intro hp
      exact ⟨_, list_posix_dir w' dir p perm hr1 (hd p perm hl) hp, hmem⟩
  · intro n w1 hn hrm l hlist
    obtain ⟨p', hr', -, rfl⟩ := posix_Remove_ok w w1 _ hrm
    have hp' := resolve_join w dir n p p' hn hr hr'
    subst hp'
    rcases list_posix_names _ dir l hlist with rfl | ⟨q, hq, rfl⟩
    · simp
    · have hd : ∀ r pm, World.lookupNode
          ⟨remove (n :: p) w.names, w.store, w.fds, w.umask, w.fileSizeLimit⟩ r
            = some (Node.dir pm) → w.lookupNode r = some (Node.dir pm) := by
        intro r pm hr1
        rw [lookupNode_remove w (n :: p) r] at hr1
        split_ifs at hr1
        exact hr1
      have := resolve_of_dirs_kept _ w dir q hd hq
      rw [hr] at this
      simp only [Except.ok.injEq] at this
      subst this
      rw [mem_children, lookupNode_remove w (n :: p) (n :: p)]
      simp

/-- C4 witness: on the sample host the directory `d` is empty; after Create of
`d/x` it lists `x`; after Remove of `a` from the root the root does not list
`a`; the names the root lists are entry names. -/
theorem C4_list_is_directory_content_witness :
    (defFS.List posix "d" sampleWorld).1 = (some [], none) ∧
    (∃ l, (defFS.List posix "d" (defFS.Create posix "d/x" sampleWorld).2).1 = (some l, none) ∧
      "x" ∈ l) ∧
    (∀ l, (defFS.List posix "/" (defFS.Remove posix "//a" sampleWorld).2).1.1 = some l →
      "a" ∉ l) ∧
    (∀ n ∈ sampleWorld.children [], properName n) :=
  ⟨(C4_list_is_directory_content sampleWorld "d" ["d"] rwx (by rfl) (by decide)).2.1 rfl,
    ((C4_list_is_directory_content sampleWorld "d" ["d"] rwx (by rfl) (by decide)).2.2.2.2.1 "x"
      (defFS.Create posix "d/x" sampleWorld).1.1 (defFS.Create posix "d/x" sampleWorld).2
      ⟨by decide, by decide, by decide, by decide⟩ (by decide)).2 rfl,
    (C4_list_is_directory_content sampleWorld "/" [] rwx (by rfl) (by decide)).2.2.2.2.2 "a"
      (defFS.Remove posix "//a" sampleWorld).2
      ⟨by decide, by decide, by decide, by decide⟩ (by decide),
    (C4_list_is_directory_content sampleWorld "/" [] rwx (by rfl) (by decide)).2.2.2.1 (by
      intro e he c hc
      simp only [sampleWorld, List.mem_cons, List.mem_singleton, List.mem_nil_iff,
        or_false] at he
      rcases he with rfl | rfl | rfl
      · simp at hc
      · simp only [List.mem_singleton] at hc
        subst hc
        exact ⟨by decide, by decide, by decide, by decide⟩
      · simp only [List.mem_singleton] at hc
        subst hc
        exact ⟨by decide, by decide, by decide, by decide⟩)⟩

/-! ## Locking: C9, C10 -/

theorem le_foldr_max (l : List Nat) (k : Nat) (h : k ∈ l) : k ≤ l.foldr max 0 := by
  induction l with
  | nil => simp at h
  | cons a l ih =>
    simp only [List.mem_cons] at h
    simp only [List.foldr_cons]
    rcases h with rfl | h
    · exact le_max_left _ _
    · exact le_trans (ih h) (le_max_right _ _)

theorem find_fresh {β : Type} (l : List (Nat × β)) : find (fresh l) l = none := by
  rw [find_eq_none_iff]
  intro e he heq
  have := le_foldr_max (l.map Prod.fst) e.1 (List.mem_map_of_mem _ he)
  unfold fresh at heq
  omega

/-- Open-or-create of a name that resolves to a file or device: it opens that
node when the process may read and write it, and is denied otherwise. -/
theorem posix_OpenOrCreate_existing (w : World) (name : String) (p : Path) (nd : Node)
    (ino : Nat) (perm : Perm) (t : Target)
    (hr : w.resolve name = Except.ok p) (hl : w.lookupNode p = some nd)
    (hk : nd.lockable = some (ino, perm, t)) :
    posix.OpenOrCreate name w =
      if (perm.r && perm.w) = true then
        (Except.ok (fresh w.fds, ino),
          ⟨w.names, w.store, put (fresh w.fds) ⟨t, true, 0⟩ w.fds, w.umask, w.fileSizeLimit⟩)
      else (Except.error Errno.EACCES, w) := by
  simp only [posix.OpenOrCreate, hr, hl, hk, World.alloc]

/-- What a successful open-or-create did on the reference host. -/
theorem posix_OpenOrCreate_ok (w w1 : World) (name : String) (fd ino : Nat)
    (h : posix.OpenOrCreate name w = (Except.ok (fd, ino), w1)) :
    ∃ p nd perm t, w1.resolve name = Except.ok p ∧ w1.lookupNode p = some nd ∧
      nd.lockable = some (ino, perm, t) ∧ fd = fresh w.fds ∧
      (find fd w1.fds).isSome = true := by
  rcases hr : w.resolve name with e | p
  · simp [posix.OpenOrCreate, hr] at h
  · rcases hl : w.lookupNode p with _ | nd
    · cases hp : w.parentWritable p
      · simp [posix.OpenOrCreate, hr, hl, hp] at h
      · simp only [posix.OpenOrCreate, hr, hl, hp, if_true, World.alloc, Prod.mk.injEq,
          Except.ok.injEq] at h
        obtain ⟨⟨rfl, rfl⟩, rfl⟩ := h
        have hd : ∀ q perm, w.lookupNode q = some (Node.dir perm) →
            World.lookupNode ⟨put p (Node.file w.freshIno w.newFilePerm) w.names,
              put w.freshIno [] w.store,
              put (fresh w.fds) ⟨Target.file w.freshIno, true, 0⟩ w.fds, w.umask,
              w.fileSizeLimit⟩ q = some (Node.dir perm) := by
          intro q perm hq
          rw [lookupNode_put w p q]
          by_cases hqp : q = p
          · rw [hqp, hl] at hq
            simp at hq
          · simp [hqp, hq]
        refine ⟨p, Node.file w.freshIno w.newFilePerm, w.newFilePerm, Target.file w.freshIno,
          resolve_of_dirs_kept w _ name p hd hr, ?_, rfl, rfl, by simp [find_put_self]⟩
        rw [lookupNode_put w p p]
        simp
    · rcases hk : nd.lockable with _ | ⟨i, perm, t⟩
      · simp [posix.OpenOrCreate, hr, hl, hk] at h
      · rw [posix_OpenOrCreate_existing w name p nd i perm t hr hl hk] at h
        split_ifs at h with hp
        · simp only [Prod.mk.injEq, Except.ok.injEq] at h
          obtain ⟨⟨rfl, rfl⟩, rfl⟩ := h
          exact ⟨p, nd, perm, t, resolve_of_dirs_kept w _ name p (fun q pm hq => hq) hr, hl,
            hk, rfl, by simp [find_put_self]⟩
        · simp at h

theorem heldByOther_iff (locks : List (Nat × Nat)) (ino pid : Nat) :
    heldByOther locks ino pid = true ↔ ∃ q, (ino, q) ∈ locks ∧ q ≠ pid := by
  simp only [heldByOther, List.any_eq_true, decide_eq_true_eq]
  constructor
  · rintro ⟨⟨i, q⟩, hm, h1, h2⟩
    simp only at h1 h2
    subst h1
    exact ⟨q, hm, h2⟩
  · rintro ⟨q, hm, h2⟩
    exact ⟨(ino, q), hm, rfl, h2⟩

/-- What a successful Lock did. -/
theorem Lock_ok (pid : Nat) (name : String) (s : LockWorld) (h : LockHandle)
    (hk : (Lock Platform.linux pid name s).1.1 = some h) :
    ∃ w1, posix.OpenOrCreate name s.world = (Except.ok (h.fd, h.ino), w1) ∧ h.pid = pid ∧
      (∀ q, (h.ino, q) ∈ s.locks → q = pid) ∧
      Lock Platform.linux pid name s = ((some h, none), ⟨w1, (h.ino, pid) :: s.locks⟩) := by
  rcases hoc : posix.OpenOrCreate name s.world with ⟨r, w1⟩
  rcases r with e | ⟨fd, ino⟩
  · simp [Lock, hoc] at hk
  · by_cases hany : heldByOther s.locks ino pid = true
    · simp [Lock, hoc, hany] at hk
    · simp only [Lock, hoc, hany] at hk ⊢
      simp only [Bool.false_eq_true, if_false, Option.some.injEq] at hk
      subst hk
      refine ⟨w1, rfl, rfl, ?_, by simp⟩
      intro q hq
      by_contra hne
      exact hany ((heldByOther_iff _ _ _).mpr ⟨q, hq, hne⟩)

/-- A handle just returned by Lock is unreleased. -/
theorem Lock_ok_heldOn (pid : Nat) (name : String) (s : LockWorld) (h : LockHandle)
    (hk : (Lock Platform.linux pid name s).1.1 = some h) :
    h.heldOn name (Lock Platform.linux pid name s).2 := by
  obtain ⟨w1, hoc, hpid, hq, heq⟩ := Lock_ok pid name s h hk
  obtain ⟨p, nd, perm, t, hr, hl, hlk, -, hfd⟩ := posix_OpenOrCreate_ok _ _ _ _ _ hoc
  rw [heq]
  refine ⟨⟨p, nd, perm, t, hr, hl, hlk⟩, hfd, ?_, ?_⟩
  · simp [hpid]
  · intro q hm
    simp only [List.mem_cons, Prod.mk.injEq] at hm
    rcases hm with hm | hm
    · rw [hm.2, hpid]
    · rw [hpid]
      exact hq q hm

/-- While a handle is unreleased, a Lock by another process fails, with the
lock-held error when that process can open the file, and leaves the handle
unreleased. -/
theorem Lock_while_held (h : LockHandle) (name : String) (s : LockWorld) (p2 : Nat)
    (hh : h.heldOn name s) (hp : p2 ≠ h.pid) :
    (Lock Platform.linux p2 name s).1.1 = none ∧
    (Lock Platform.linux p2 name s).1.2 ≠ none ∧
    (canOpen name s.world →
      (Lock Platform.linux p2 name s).1.2 = some Errno.ErrLockHeld) ∧
    h.heldOn name (Lock Platform.linux p2 name s).2 := by
  obtain ⟨⟨p, nd, perm, t, hr, hl, hlk⟩, hfd, hm, hq⟩ := hh
  have hoc := posix_OpenOrCreate_existing s.world name p nd h.ino perm t hr hl hlk
  have hany : heldByOther s.locks h.ino p2 = true :=
    (heldByOther_iff _ _ _).mpr ⟨h.pid, hm, Ne.symm hp⟩
  cases hrw : (perm.r && perm.w)
  · simp only [hrw, Bool.false_eq_true, if_false] at hoc
    have hst : Lock Platform.linux p2 name s = ((none, some Errno.EACCES), s) := by
      simp [Lock, hoc]
    rw [hst]
    refine ⟨rfl, by simp, ?_, ⟨p, nd, perm, t, hr, hl, hlk⟩, hfd, hm, hq⟩
    rintro ⟨r, w1, hco⟩
    rw [hoc] at hco
    simp at hco
  · simp only [hrw, if_true] at hoc
    have hne : h.fd ≠ fresh s.world.fds := by
      intro heq
      rw [heq, find_fresh] at hfd
      simp at hfd
    have hst : Lock Platform.linux p2 name s =
        ((none, some Errno.ErrLockHeld),
          ⟨⟨s.world.names, s.world.store,
            remove (fresh s.world.fds)
              (put (fresh s.world.fds) ⟨t, true, 0⟩ s.world.fds), s.world.umask,
            s.world.fileSizeLimit⟩, s.locks⟩) := by
      simp [Lock, hoc, hany, posix.Close, find_put_self]
    rw [hst]
    refine ⟨rfl, by simp, fun _ => rfl, ⟨p, nd, perm, t, ?_, hl, hlk⟩, ?_, hm, hq⟩
    · exact resolve_of_dirs_kept s.world _ name p (fun q pm hq1 => hq1) hr
    · simp only
      rw [find_remove_ne hne, find_put_ne hne]
      exact hfd

/-- Closing an unreleased handle succeeds and leaves its inode locked by no
process; a Lock of the same name by a process that can open the file then
succeeds. -/
theorem Lock_after_close (h : LockHandle) (name : String) (s : LockWorld) (p2 : Nat)
    (hh : h.heldOn name s) :
    (h.Close s).1 = none ∧ (∀ q, (h.ino, q) ∉ (h.Close s).2.locks) ∧
    (canOpen name (h.Close s).2.world →
      ∃ h2, (Lock Platform.linux p2 name (h.Close s).2).1 = (some h2, none) ∧ h2.pid = p2) := by
  obtain ⟨⟨p, nd, perm, t, hr, hl, hlk⟩, hfd, hm, hq⟩ := hh
  obtain ⟨d, hd⟩ := Option.isSome_iff_exists.mp hfd
  have hc : h.Close s =
      (none, ⟨⟨s.world.names, s.world.store, remove h.fd s.world.fds, s.world.umask,
        s.world.fileSizeLimit⟩, release s.locks h.ino h.pid⟩) := by
    simp [LockHandle.Close, posix.Close, hd]
  have hfree : ∀ q, (h.ino, q) ∉ release s.locks h.ino h.pid := by
    intro q hmem
    rw [release, List.mem_filter] at hmem
    have := hq q hmem.1
    subst this
    simp at hmem
  rw [hc]
  refine ⟨rfl, hfree, ?_⟩
  rintro ⟨r, w1, hco⟩
  have hr2 : World.resolve ⟨s.world.names, s.world.store, remove h.fd s.world.fds,
      s.world.umask, s.world.fileSizeLimit⟩ name = Except.ok p :=
    resolve_of_dirs_kept s.world _ name p (fun q pm hq1 => hq1) hr
  have hoc := posix_OpenOrCreate_existing _ name p nd h.ino perm t hr2 hl hlk
  have hany : heldByOther (release s.locks h.ino h.pid) h.ino p2 = false := by
    rw [Bool.eq_false_iff, Ne, heldByOther_iff]
    rintro ⟨q, hmem, -⟩
    exact hfree q hmem
  cases hrw : (perm.r && perm.w)
  · simp only [hrw, Bool.false_eq_true, if_false] at hoc
    simp only at hco
    rw [hoc] at hco
    simp at hco
  · simp only [hrw, if_true] at hoc
    simp [Lock, hoc, hany]

/-- C9: Lock returns the nil Closer exactly when it returns a non-nil error; a
handle it returns belongs to the calling process and holds the lock, closing it
succeeds and leaves the file locked by no process; on a platform without the
locking primitive every call returns the unsupported error and changes nothing. -/
theorem C9_lock_nil_closer_iff_error (plat : Platform) (pid : Nat) (name : String)
    (s : LockWorld) :
    ((Lock plat pid name s).1.1 = none ↔ (Lock plat pid name s).1.2 ≠ none) ∧
    (∀ h, (Lock plat pid name s).1.1 = some h →
      h.pid = pid ∧ (h.ino, pid) ∈ (Lock plat pid name s).2.locks ∧
      (h.Close (Lock plat pid name s).2).1 = none ∧
      ∀ q, (h.ino, q) ∉ (h.Close (Lock plat pid name s).2).2.locks) ∧
    Lock Platform.other pid name s = ((none, some Errno.ErrUnsupported), s) := by
  refine ⟨?_, ?_, rfl⟩
  · cases plat with
    | other => simp [Lock]
    | linux =>
      rcases hoc : posix.OpenOrCreate name s.world with ⟨r, w1⟩
      rcases r with e | ⟨fd, ino⟩
      · simp [Lock, hoc]
      · by_cases hany : heldByOther s.locks ino pid = true <;> simp [Lock, hoc, hany]
  · intro h hk
    cases plat with
    | other => simp [Lock] at hk
    | linux =>
      have hh := Lock_ok_heldOn pid name s h hk
      obtain ⟨w1, -, hpid, -, heq⟩ := Lock_ok pid name s h hk
      obtain ⟨hc, hfree, -⟩ := Lock_after_close h name _ pid hh
      refine ⟨hpid, ?_, hc, hfree⟩
      rw [heq]
      simp

/-- C9 witness: a Lock on the empty host returns a handle, and closing it
releases the lock. -/
theorem C9_lock_nil_closer_iff_error_witness :
    (Lock Platform.linux 1 "LOCK" ⟨emptyWorld, []⟩).1.1 = some ⟨1, 1, 1⟩ ∧
    (LockHandle.Close ⟨1, 1, 1⟩ (Lock Platform.linux 1 "LOCK" ⟨emptyWorld, []⟩).2).1 = none ∧
    ∀ q, (1, q) ∉
      (LockHandle.Close ⟨1, 1, 1⟩ (Lock Platform.linux 1 "LOCK" ⟨emptyWorld, []⟩).2).2.locks :=
  ⟨by decide,
    ((C9_lock_nil_closer_iff_error Platform.linux 1 "LOCK" ⟨emptyWorld, []⟩).2.1
      ⟨1, 1, 1⟩ (by decide)).2.2⟩


/-- C10 (amended): on the platform that has the locking primitive, Lock(name)
succeeds exactly when the file can be opened or created and no other process
holds its lock, and the handle it returns is then unreleased.  For as long as a
handle is unreleased (its descriptor is open, its process still holds the claim
on the file, and the name still resolves to that file), every Lock(name) of
another process returns the nil Closer and an error, which is the lock-held
error whenever that process can open the file, and leaves the handle
unreleased; closing the handle succeeds and leaves the file locked by no
process, and a Lock(name) retried after it by a process that can open the file
succeeds. -/
theorem C10_lock_exclusive (name : String) (s : LockWorld) (p1 : Nat) :
    ((Lock Platform.linux p1 name s).1.2 = none ↔
      ∃ fd ino w1, posix.OpenOrCreate name s.world = (Except.ok (fd, ino), w1) ∧
        ∀ q, (ino, q) ∈ s.locks → q = p1) ∧
    (∀ h, (Lock Platform.linux p1 name s).1 = (some h, none) →
      h.pid = p1 ∧ h.heldOn name (Lock Platform.linux p1 name s).2) ∧
    (∀ (h : LockHandle) (s1 : LockWorld) (p2 : Nat), h.heldOn name s1 → p2 ≠ h.pid →
      (Lock Platform.linux p2 name s1).1.1 = none ∧
      (Lock Platform.linux p2 name s1).1.2 ≠ none ∧
      (canOpen name s1.world →
        (Lock Platform.linux p2 name s1).1.2 = some Errno.ErrLockHeld) ∧
      h.heldOn name (Lock Platform.linux p2 name s1).2) ∧
    (∀ (h : LockHandle) (s1 : LockWorld) (p2 : Nat), h.heldOn name s1 →
      (h.Close s1).1 = none ∧ (∀ q, (h.ino, q) ∉ (h.Close s1).2.locks) ∧
      (canOpen name (h.Close s1).2.world →
        ∃ h2, (Lock Platform.linux p2 name (h.Close s1).2).1 = (some h2, none) ∧
          h2.pid = p2)) := by
  refine ⟨?_, ?_, fun h s1 p2 hh hp => Lock_while_held h name s1 p2 hh hp,
    fun h s1 p2 hh => Lock_after_close h name s1 p2 hh⟩
  · rcases hoc : posix.OpenOrCreate name s.world with ⟨r, w1⟩
    rcases r with e | ⟨fd, ino⟩
    · simp [Lock, hoc]
    · by_cases hany : heldByOther s.locks ino p1 = true
      · have := (heldByOther_iff _ _ _).mp hany
        obtain ⟨q, hm, hne⟩ := this
        simp only [Lock, hoc, hany, if_true]
        constructor
        · intro h; simp at h
        · rintro ⟨fd', ino', w1', heq, hall⟩
          simp only [Prod.mk.injEq, Except.ok.injEq] at heq
          obtain ⟨⟨-, rfl⟩, -⟩ := heq
          exact absurd (hall q hm) hne
      · simp only [Lock, hoc, hany]
        simp only [Bool.false_eq_true, if_false, true_iff]
        refine ⟨fd, ino, w1, rfl, ?_⟩
        intro q hq
        by_contra hne
        exact hany ((heldByOther_iff _ _ _).mpr ⟨q, hq, hne⟩)
  · intro h hk
    have hk1 : (Lock Platform.linux p1 name s).1.1 = some h := by rw [hk]
    obtain ⟨-, -, hpid, -, -⟩ := Lock_ok p1 name s h hk1
    exact ⟨hpid, Lock_ok_heldOn p1 name s h hk1⟩

/-- C10 witness: process 1 locks `LOCK` on the empty host; process 2 then fails
with the lock-held error, and succeeds once process 1 has closed its handle. -/
theorem C10_lock_exclusive_witness :
    (Lock Platform.linux 1 "LOCK" ⟨emptyWorld, []⟩).1 = (some ⟨1, 1, 1⟩, none) ∧
    (Lock Platform.linux 2 "LOCK" (Lock Platform.linux 1 "LOCK" ⟨emptyWorld, []⟩).2).1.2
      = some Errno.ErrLockHeld ∧
    ∃ h2, (Lock Platform.linux 2 "LOCK"
      (LockHandle.Close ⟨1, 1, 1⟩ (Lock Platform.linux 1 "LOCK" ⟨emptyWorld, []⟩).2).2).1
        = (some h2, none) ∧ h2.pid = 2 := by
  have hh := ((C10_lock_exclusive "LOCK" ⟨emptyWorld, []⟩ 1).2.1 ⟨1, 1, 1⟩ (by decide)).2
  refine ⟨by decide, ?_, ?_⟩
  · exact ((C10_lock_exclusive "LOCK" ⟨emptyWorld, []⟩ 1).2.2.1 ⟨1, 1, 1⟩ _ 2 hh
      (by decide)).2.2.1 ⟨(2, 1), _, rfl⟩
  · exact ((C10_lock_exclusive "LOCK" ⟨emptyWorld, []⟩ 1).2.2.2 ⟨1, 1, 1⟩ _ 2 hh).2.2
      ⟨(1, 1), _, rfl⟩

/-- C10 counterexample: of two Lock calls on one name by two processes, neither
succeeds on a platform without the locking primitive, and neither succeeds for a
name under a missing directory; and once process 1 has locked `LOCK`, locked it
again and closed the second handle, process 2 locks it while the first handle
of process 1 is still open. -/
theorem C10_not_exactly_one :
    ((Lock Platform.other 1 "LOCK" ⟨emptyWorld, []⟩).1 = (none, some Errno.ErrUnsupported) ∧
      (Lock Platform.other 2 "LOCK" (Lock Platform.other 1 "LOCK" ⟨emptyWorld, []⟩).2).1
        = (none, some Errno.ErrUnsupported)) ∧
    ((Lock Platform.linux 1 "nodir/LOCK" ⟨emptyWorld, []⟩).1 = (none, some Errno.ENOENT) ∧
      (Lock Platform.linux 2 "nodir/LOCK"
        (Lock Platform.linux 1 "nodir/LOCK" ⟨emptyWorld, []⟩).2).1
          = (none, some Errno.ENOENT)) ∧
    ((Lock Platform.linux 1 "LOCK" ⟨emptyWorld, []⟩).1 = (some ⟨1, 1, 1⟩, none) ∧
      (Lock Platform.linux 1 "LOCK" (Lock Platform.linux 1 "LOCK" ⟨emptyWorld, []⟩).2).1
        = (some ⟨2, 1, 1⟩, none) ∧
      (Lock Platform.linux 2 "LOCK"
        (LockHandle.Close ⟨2, 1, 1⟩
          (Lock Platform.linux 1 "LOCK"
            (Lock Platform.linux 1 "LOCK" ⟨emptyWorld, []⟩).2).2).2).1
        = (some ⟨2, 1, 2⟩, none) ∧
      (find 1 (LockHandle.Close ⟨2, 1, 1⟩
          (Lock Platform.linux 1 "LOCK"
            (Lock Platform.linux 1 "LOCK" ⟨emptyWorld, []⟩).2).2).2.world.fds).isSome
        = true) := by
  decide
end db
